import Mathlib

/-!
Verification of the conversational knowledge-graph refinement core
(`JSONConversationHandler` in `test.py`).

The embedding models Python JSON values (`dict` / `list` / `str` / `int` /
`bool` / `None`) as the inductive type `JValue`.  Numbers are modelled as
integers: no claim under scrutiny involves floating point (the embedded
`json.loads` model rejects fraction/exponent forms, and the handler only
serializes documents whose numeric leaves are integers).  Python `dict`s
always have pairwise-distinct keys; `JValue.obj` generalises them to
insertion-ordered association lists, and `wellFormedJ` carves out the image
of actual Python dictionaries.

Python methods become pure Lean functions; the mutable handler object
becomes explicit state passing over `HandlerState`; the single raising call
site (`self.llm.generate`) becomes an `Except String String` input; each
`try`/`except` block becomes the corresponding `Option`/branching control
flow, so "never raises" is totality of the Lean function.  Every definition
is executable, so each theorem can be evaluated on concrete inputs.
-/

namespace KG

/-- A Python/JSON value: strings, integers, booleans, `None`, lists, and
string-keyed dictionaries (association lists, insertion ordered). -/
inductive JValue where
  | str (s : String)
  | num (n : Int)
  | bool (b : Bool)
  | null
  | arr (elems : List JValue)
  | obj (fields : List (String × JValue))

mutual

/-- Structural boolean equality on `JValue` (Python `==` on JSON values). -/
def beqJ : JValue → JValue → Bool
  | .str a, .str b => a == b
  | .num a, .num b => a == b
  | .bool a, .bool b => a == b
  | .null, .null => true
  | .arr xs, .arr ys => beqListJ xs ys
  | .obj fs, .obj gs => beqFieldsJ fs gs
  | _, _ => false

/-- Boolean equality on lists of values. -/
def beqListJ : List JValue → List JValue → Bool
  | [], [] => true
  | x :: xs, y :: ys => beqJ x y && beqListJ xs ys
  | _, _ => false

/-- Boolean equality on dictionary field lists. -/
def beqFieldsJ : List (String × JValue) → List (String × JValue) → Bool
  | [], [] => true
  | (k, v) :: fs, (l, w) :: gs => k == l && beqJ v w && beqFieldsJ fs gs
  | _, _ => false

end

/-- Python `dict` key lookup on the association-list model (Python dicts
have unique keys, so first match is the match); `none` is a missing key. -/
def lookupField : List (String × JValue) → String → Option JValue
  | [], _ => none
  | (k, v) :: fs, key => if k = key then some v else lookupField fs key

/-- Boolean membership of a value in a list of values (Python `in` over the
set of node ids). -/
def memJ (x : JValue) : List JValue → Bool
  | [] => false
  | y :: ys => beqJ x y || memJ x ys

/-!
## Validator: `_validate_json_structure` (test.py lines 246-288)

The Python body cannot raise (every subscript is guarded by a prior key
check), so the `except` clause at line 286 is dead code and the embedding
is the straight-line branch structure.
-/

/-- One node check from the loop at lines 261-265: a node must be a dict
containing at minimum the keys `id`, `name`, `type`. -/
def nodeOk : JValue → Bool
  | .obj f =>
      (lookupField f "id").isSome && (lookupField f "name").isSome &&
        (lookupField f "type").isSome
  | _ => false

/-- One relationship check from the loop at lines 272-276: a relationship
must be a dict containing at minimum `source`, `target`, `type`. -/
def relOk : JValue → Bool
  | .obj f =>
      (lookupField f "source").isSome && (lookupField f "target").isSome &&
        (lookupField f "type").isSome
  | _ => false

/-- The node-id set built at line 279: `node["id"]` for each node.  When
this runs every node is already known to be a dict carrying `id`. -/
def nodeIdsOf (nodes : List JValue) : List JValue :=
  nodes.filterMap fun n =>
    match n with
    | .obj f => lookupField f "id"
    | _ => none

/-- The referential check of lines 280-282: both `source` and `target` of a
relationship must be members of the node-id set. -/
def relRefsOk (ids : List JValue) : JValue → Bool
  | .obj f =>
      (match lookupField f "source" with
       | some s => memJ s ids
       | none => false) &&
      (match lookupField f "target" with
       | some t => memJ t ids
       | none => false)
  | _ => false

/-- `_validate_json_structure` (lines 246-288): the candidate must be a
dict with `nodes` and `relationships` keys, both lists, every node and
relationship must pass the shape checks, and every relationship endpoint
must reference a node id. -/
def validate_json_structure (j : JValue) : Bool :=
  match j with
  | .obj fields =>
      match lookupField fields "nodes", lookupField fields "relationships" with
      | some (.arr nodes), some (.arr rels) =>
          nodes.all nodeOk && rels.all relOk &&
            rels.all (relRefsOk (nodeIdsOf nodes))
      | _, _ => false
  | _ => false

/-- The `nodes` list of a candidate document, as the validator reads it. -/
def docNodes : JValue → List JValue
  | .obj fields =>
      match lookupField fields "nodes" with
      | some (.arr ns) => ns
      | _ => []
  | _ => []

/-- The `relationships` list of a candidate document. -/
def docRels : JValue → List JValue
  | .obj fields =>
      match lookupField fields "relationships" with
      | some (.arr rs) => rs
      | _ => []
  | _ => []

/-- Field lookup on a candidate node or relationship. -/
def itemField (r : JValue) (k : String) : Option JValue :=
  match r with
  | .obj f => lookupField f k
  | _ => none

/-- The list of node-id values of a candidate document. -/
def docNodeIds (j : JValue) : List JValue :=
  nodeIdsOf (docNodes j)

/-!
## String primitives mirroring the Python `str` operations used by the
parser: `find`, slicing, `strip`, `in`.
-/

/-- Python slice `s[a:b]` on character lists. -/
def sliceChars (cs : List Char) (a b : Nat) : List Char :=
  (cs.drop a).take (b - a)

/-- Python's default `str.strip` whitespace set (ASCII fragment). -/
def isPyWsChar (c : Char) : Bool :=
  c = ' ' || c = '\t' || c = '\n' || c = '\r' || c = '\x0b' || c = '\x0c'

/-- Python `str.strip()`. -/
def pyStrip (cs : List Char) : List Char :=
  ((cs.dropWhile isPyWsChar).reverse.dropWhile isPyWsChar).reverse

/-- Scan for the first occurrence of `needle`, carrying the index reached. -/
def findFromAux (needle : List Char) : List Char → Nat → Option Nat
  | [], i => if needle.isEmpty then some i else none
  | hay@(_ :: rest), i =>
      if needle.isPrefixOf hay then some i else findFromAux needle rest (i + 1)

/-- Python `hay.find(needle, start)`: index of the first occurrence at or
after `start`, `none` for Python's `-1` (for the nonempty needles the
parser uses). -/
def findFrom (hay needle : List Char) (start : Nat) : Option Nat :=
  (findFromAux needle (hay.drop start) 0).map (· + start)

/-- Python `needle in hay` on strings. -/
def containsSub (hay needle : List Char) : Bool :=
  (findFrom hay needle 0).isSome

/-!
## A model of Python `json.loads` (strict mode)

A fueled recursive-descent parser over characters.  Faithfulness notes:
Python parses fraction/exponent forms and `NaN`/`Infinity` as floats, which
the integer-valued model instead rejects; Python tolerates lone surrogate
escapes (producing lone-surrogate strings that Lean's `Char` cannot carry),
which the model rejects; both divergences are outside every document the
handler produces or that the claims exercise.  Duplicate keys inside one
object follow CPython `dict` semantics: first-occurrence position, last
value (`insertPair`).
-/

/-- JSON whitespace accepted between tokens. -/
def isJsonWsChar (c : Char) : Bool :=
  c = ' ' || c = '\t' || c = '\n' || c = '\r'

/-- Skip JSON whitespace. -/
def skipJsonWs (cs : List Char) : List Char :=
  cs.dropWhile isJsonWsChar

/-- Value of one hexadecimal digit (both cases), `none` otherwise. -/
def hexVal (c : Char) : Option Nat :=
  if 48 ≤ c.toNat ∧ c.toNat ≤ 57 then some (c.toNat - 48)
  else if 97 ≤ c.toNat ∧ c.toNat ≤ 102 then some (c.toNat - 87)
  else if 65 ≤ c.toNat ∧ c.toNat ≤ 70 then some (c.toNat - 55)
  else none

/-- Combine four hex-digit values into one code unit. -/
def hexQuad (a b c d : Option Nat) (rest : List Char) : Option (Nat × List Char) :=
  match a, b, c, d with
  | some a, some b, some c, some d => some (a * 4096 + b * 256 + c * 16 + d, rest)
  | _, _, _, _ => none

/-- Read four hexadecimal digits. -/
def parseHex4 : List Char → Option (Nat × List Char)
  | h1 :: h2 :: h3 :: h4 :: rest => hexQuad (hexVal h1) (hexVal h2) (hexVal h3) (hexVal h4) rest
  | _ => none

/-- Decode the low-surrogate continuation of a surrogate-pair escape. -/
def surrogatePairRest (n : Nat) (rest : List Char) : Option (Char × List Char) :=
  match rest with
  | b2 :: u2 :: rest2 =>
      if b2 = '\\' ∧ u2 = 'u' then
        match parseHex4 rest2 with
        | some (m, rest3) =>
            if 0xDC00 ≤ m ∧ m ≤ 0xDFFF then
              some (Char.ofNat (0x10000 + (n - 0xD800) * 0x400 + (m - 0xDC00)), rest3)
            else none
        | none => none
      else none
  | _ => none

/-- Decode one `\uXXXX` escape, recombining surrogate pairs; a lone
surrogate is rejected (Lean's `Char` cannot carry it). -/
def parseUEscape (cs : List Char) : Option (Char × List Char) :=
  match parseHex4 cs with
  | some (n, rest) =>
      if 0xD800 ≤ n ∧ n ≤ 0xDBFF then surrogatePairRest n rest
      else if 0xDC00 ≤ n ∧ n ≤ 0xDFFF then none
      else some (Char.ofNat n, rest)
  | none => none

/-- The single-character escapes of the JSON grammar. -/
def escCharOf (e : Char) : Option Char :=
  if e = '"' then some '"'
  else if e = '\\' then some '\\'
  else if e = '/' then some '/'
  else if e = 'b' then some '\x08'
  else if e = 'f' then some '\x0c'
  else if e = 'n' then some '\n'
  else if e = 'r' then some '\r'
  else if e = 't' then some '\t'
  else none

/-- Prepend a decoded character to a string-body parse result. -/
def consStr (ch : Char) (r : Option (List Char × List Char)) :
    Option (List Char × List Char) :=
  r.map fun p => (ch :: p.1, p.2)

/-- Decode the body of a JSON string literal up to the closing quote
(strict mode: raw control characters are rejected).  The fuel only needs to
exceed the number of decoded characters; callers pass the input length. -/
def parseStringBody : Nat → List Char → Option (List Char × List Char)
  | 0, _ => none
  | _ + 1, [] => none
  | fuel + 1, c :: rest =>
      if c = '"' then some ([], rest)
      else if c = '\\' then
        match rest with
        | [] => none
        | e :: rest2 =>
            if e = 'u' then
              match parseUEscape rest2 with
              | some p => consStr p.1 (parseStringBody fuel p.2)
              | none => none
            else
              match escCharOf e with
              | some ch => consStr ch (parseStringBody fuel rest2)
              | none => none
      else if c.toNat < 32 then none
      else consStr c (parseStringBody fuel rest)

/-- Accumulate a run of decimal digits, left to right. -/
def readDigitsAcc (acc : Nat) : List Char → Nat × List Char
  | c :: cs =>
      if c.isDigit then readDigitsAcc (10 * acc + (c.toNat - 48)) cs
      else (acc, c :: cs)
  | [] => (acc, [])

/-- The integer part of a JSON number: `0` or a nonzero-led digit run
(mirroring the integer fragment of Python's number regex, under which
`0123` parses as `0` with `123` left over). -/
def parseIntPart : List Char → Option (Nat × List Char)
  | [] => none
  | c :: rest =>
      if c = '0' then some (0, rest)
      else if c.isDigit then some (readDigitsAcc 0 (c :: rest))
      else none

/-- The integer model rejects numbers continuing with `.`/`e`/`E` (Python
would produce a float there). -/
def numTerm : List Char → Bool
  | [] => true
  | c :: _ => !(c = '.' || c = 'e' || c = 'E')

/-- The continuation does not begin with a character that would extend a
serialized number (in serialized output the next character is a comma,
newline, closing bracket, or nothing). -/
def sepOk : List Char → Bool
  | [] => true
  | c :: _ => !(c.isDigit || c = '.' || c = 'e' || c = 'E')

/-- Parse a JSON integer (optional minus sign). -/
def parseNumber : List Char → Option (JValue × List Char)
  | [] => none
  | c :: rest =>
      if c = '-' then
        match parseIntPart rest with
        | some (n, r) => if numTerm r then some (.num (-(n : Int)), r) else none
        | none => none
      else
        match parseIntPart (c :: rest) with
        | some (n, r) => if numTerm r then some (.num (n : Int), r) else none
        | none => none

/-- CPython dict insertion: a repeated key keeps its first position but
takes the later value. -/
def insertPair : List (String × JValue) → String → JValue → List (String × JValue)
  | [], k, v => [(k, v)]
  | (k0, v0) :: rest, k, v =>
      if k0 = k then (k0, v) :: rest else (k0, v0) :: insertPair rest k v

/-- Fold parsed key/value pairs into a dict, CPython style. -/
def dedupFields (ps : List (String × JValue)) : List (String × JValue) :=
  ps.foldl (fun acc p => insertPair acc p.1 p.2) []

mutual

/-- Parse one JSON value (fueled; fuel `5·|input| + 5` always suffices:
every five fuel ticks consume at least one input character). -/
def parseValue : Nat → List Char → Option (JValue × List Char)
  | 0, _ => none
  | fuel + 1, cs =>
      match skipJsonWs cs with
      | [] => none
      | c :: rest =>
          if c = '\x7b' then
            if (skipJsonWs rest).head? = some '\x7d' then
              some (.obj [], (skipJsonWs rest).tail)
            else (parseMembers fuel rest).map fun p => (.obj (dedupFields p.1), p.2)
          else if c = '[' then
            if (skipJsonWs rest).head? = some ']' then
              some (.arr [], (skipJsonWs rest).tail)
            else (parseElems fuel rest).map fun p => (.arr p.1, p.2)
          else if c = '"' then
            (parseStringBody (rest.length + 1) rest).map fun p =>
              (.str (String.mk p.1), p.2)
          else if c = 't' then
            match rest with
            | 'r' :: 'u' :: 'e' :: r => some (.bool true, r)
            | _ => none
          else if c = 'f' then
            match rest with
            | 'a' :: 'l' :: 's' :: 'e' :: r => some (.bool false, r)
            | _ => none
          else if c = 'n' then
            match rest with
            | 'u' :: 'l' :: 'l' :: r => some (.null, r)
            | _ => none
          else parseNumber (c :: rest)

/-- Parse the members of a nonempty JSON object, positioned after `\x7b` or
after a separating comma; consumes the closing brace. -/
def parseMembers : Nat → List Char → Option (List (String × JValue) × List Char)
  | 0, _ => none
  | fuel + 1, cs =>
      match skipJsonWs cs with
      | '"' :: rest => memberKey fuel rest
      | _ => none

/-- One member: after the opening quote of the key. -/
def memberKey : Nat → List Char → Option (List (String × JValue) × List Char)
  | 0, _ => none
  | fuel + 1, rest =>
      match parseStringBody (rest.length + 1) rest with
      | some (key, r1) => memberColon fuel (String.mk key) r1
      | none => none

/-- One member: expecting the key separator. -/
def memberColon : Nat → String → List Char → Option (List (String × JValue) × List Char)
  | 0, _, _ => none
  | fuel + 1, key, r1 =>
      match skipJsonWs r1 with
      | ':' :: r2 => memberValue fuel key r2
      | _ => none

/-- One member: parsing the value. -/
def memberValue : Nat → String → List Char → Option (List (String × JValue) × List Char)
  | 0, _, _ => none
  | fuel + 1, key, r2 =>
      match parseValue fuel r2 with
      | some (v, r3) => memberTail fuel key v r3
      | none => none

/-- After one member: a comma continues the object, a closing brace ends
it. -/
def memberTail : Nat → String → JValue → List Char →
    Option (List (String × JValue) × List Char)
  | 0, _, _, _ => none
  | fuel + 1, key, v, r3 =>
      match skipJsonWs r3 with
      | ',' :: r4 => (parseMembers fuel r4).map fun p => ((key, v) :: p.1, p.2)
      | '\x7d' :: r4 => some ([(key, v)], r4)
      | _ => none

/-- Parse the elements of a nonempty JSON array, positioned after `[` or
after a separating comma; consumes the closing bracket. -/
def parseElems : Nat → List Char → Option (List JValue × List Char)
  | 0, _ => none
  | fuel + 1, cs =>
      match parseValue fuel cs with
      | some (v, r1) => elemTail fuel v r1
      | none => none

/-- After one element: a comma continues the array, a closing bracket ends
it. -/
def elemTail : Nat → JValue → List Char → Option (List JValue × List Char)
  | 0, _, _ => none
  | fuel + 1, v, r1 =>
      match skipJsonWs r1 with
      | ',' :: r2 => (parseElems fuel r2).map fun p => (v :: p.1, p.2)
      | ']' :: r2 => some ([v], r2)
      | _ => none

end

/-- `json.loads` on a character list: parse one value, then require only
whitespace to remain. -/
def json_loads_chars (cs : List Char) : Option JValue :=
  match parseValue (5 * cs.length + 5) cs with
  | some (v, rest) => if (skipJsonWs rest).isEmpty then some v else none
  | none => none

/-- `json.loads` on a string. -/
def json_loads (s : String) : Option JValue :=
  json_loads_chars s.data

/-!
## A model of Python `json.dumps(document, indent=2)`

`_build_conversation_prompt` (line 166) serializes the live document with
`json.dumps(self.current_json, indent=2)`.  The model mirrors CPython's
`py_encode_basestring_ascii` escaping (shortcut escapes, `\uXXXX` for other
control and non-ASCII characters, surrogate pairs beyond the BMP) and the
`indent=2` layout (item separator `,` + newline-indent, key separator
`: `, empty containers rendered inline).
-/

/-- The decimal digit character of `n < 10`. -/
def digitChar (n : Nat) : Char := Char.ofNat (48 + n)

/-- Decimal digits of a natural number, most significant first (fueled;
`n < fuel` suffices). -/
def natCharsAux : Nat → Nat → List Char
  | 0, _ => []
  | fuel + 1, n =>
      if n < 10 then [digitChar n]
      else natCharsAux fuel (n / 10) ++ [digitChar (n % 10)]

/-- Decimal digits of a natural number. -/
def natChars (n : Nat) : List Char := natCharsAux (n + 1) n

/-- Python `str(int)`. -/
def intChars : Int → List Char
  | .ofNat n => natChars n
  | .negSucc m => '-' :: natChars (m + 1)

/-- Lowercase hexadecimal digit character of `n < 16`. -/
def hexDigitChar (n : Nat) : Char :=
  if n < 10 then Char.ofNat (48 + n) else Char.ofNat (87 + n)

/-- Four lowercase hexadecimal digits (Python `'\u%04x'`). -/
def toHex4 (n : Nat) : List Char :=
  [hexDigitChar (n / 4096 % 16), hexDigitChar (n / 256 % 16),
   hexDigitChar (n / 16 % 16), hexDigitChar (n % 16)]

/-- CPython `py_encode_basestring_ascii`, one character at a time:
shortcut escapes, then `\uXXXX` for other control characters, printable
ASCII verbatim, `\uXXXX` for the rest of the BMP, surrogate pairs above. -/
def escapeChar (c : Char) : List Char :=
  if c = '"' then ['\\', '"']
  else if c = '\\' then ['\\', '\\']
  else if c = '\n' then ['\\', 'n']
  else if c = '\r' then ['\\', 'r']
  else if c = '\t' then ['\\', 't']
  else if c = '\x08' then ['\\', 'b']
  else if c = '\x0c' then ['\\', 'f']
  else if c.toNat < 32 then '\\' :: 'u' :: toHex4 c.toNat
  else if c.toNat ≤ 126 then [c]
  else if c.toNat ≤ 0xFFFF then '\\' :: 'u' :: toHex4 c.toNat
  else '\\' :: 'u' :: toHex4 (0xD800 + (c.toNat - 0x10000) / 0x400) ++
       '\\' :: 'u' :: toHex4 (0xDC00 + (c.toNat - 0x10000) % 0x400)

/-- Escape a character sequence. -/
def escapeChars : List Char → List Char
  | [] => []
  | c :: cs => escapeChar c ++ escapeChars cs

/-- A JSON string literal, quotes included. -/
def dumpString (s : String) : List Char :=
  '"' :: escapeChars s.data ++ ['"']

/-- The newline-plus-indent separator at nesting level `lvl` for
`indent=2`. -/
def nlIndent (lvl : Nat) : List Char := '\n' :: List.replicate (2 * lvl) ' '

mutual

/-- Serialize one value at nesting level `lvl`, mirroring
`json.dumps(v, indent=2)`. -/
def dumpVal : Nat → JValue → List Char
  | _, .str s => dumpString s
  | _, .num n => intChars n
  | _, .bool true => ['t', 'r', 'u', 'e']
  | _, .bool false => ['f', 'a', 'l', 's', 'e']
  | _, .null => ['n', 'u', 'l', 'l']
  | _, .arr [] => ['[', ']']
  | lvl, .arr (x :: xs) =>
      '[' :: (nlIndent (lvl + 1) ++ dumpVal (lvl + 1) x ++
        dumpElemsRest (lvl + 1) xs ++ nlIndent lvl) ++ [']']
  | _, .obj [] => ['\x7b', '\x7d']
  | lvl, .obj (f :: fs) =>
      '\x7b' :: (nlIndent (lvl + 1) ++ dumpString f.1 ++ ':' :: ' ' ::
        dumpVal (lvl + 1) f.2 ++ dumpFieldsRest (lvl + 1) fs ++ nlIndent lvl) ++ ['\x7d']

/-- The remaining elements of a nonempty array, each preceded by the item
separator. -/
def dumpElemsRest : Nat → List JValue → List Char
  | _, [] => []
  | lvl, x :: xs => ',' :: nlIndent lvl ++ dumpVal lvl x ++ dumpElemsRest lvl xs

/-- The remaining members of a nonempty object, each preceded by the item
separator. -/
def dumpFieldsRest : Nat → List (String × JValue) → List Char
  | _, [] => []
  | lvl, f :: fs =>
      ',' :: nlIndent lvl ++ dumpString f.1 ++ ':' :: ' ' ::
        dumpVal lvl f.2 ++ dumpFieldsRest lvl fs

end

/-- `json.dumps(v, indent=2)`. -/
def json_dumps (v : JValue) : String := String.mk (dumpVal 0 v)

/-- Key membership in a field list. -/
def keyMem (k : String) : List (String × JValue) → Bool
  | [] => false
  | (k0, _) :: fs => k0 == k || keyMem k fs

mutual

/-- The image of actual Python values: every object has pairwise-distinct
keys (Python dicts cannot carry duplicates). -/
def wellFormedJ : JValue → Bool
  | .arr xs => wellFormedListJ xs
  | .obj fs => wellFormedFieldsJ fs
  | _ => true

/-- Well-formedness of every element. -/
def wellFormedListJ : List JValue → Bool
  | [] => true
  | x :: xs => wellFormedJ x && wellFormedListJ xs

/-- Distinct keys and well-formed values. -/
def wellFormedFieldsJ : List (String × JValue) → Bool
  | [] => true
  | (k, v) :: fs => !(keyMem k fs) && wellFormedJ v && wellFormedFieldsJ fs

end

mutual

/-- Fuel bound for `parseValue` on the serialized form of a value. -/
def sizeJ : JValue → Nat
  | .arr xs => 1 + sizeElemsJ xs
  | .obj fs => 1 + sizeMembersJ fs
  | _ => 1

/-- Fuel bound for `parseElems`. -/
def sizeElemsJ : List JValue → Nat
  | [] => 0
  | x :: xs => 2 + sizeJ x + sizeElemsJ xs

/-- Fuel bound for `parseMembers`. -/
def sizeMembersJ : List (String × JValue) → Nat
  | [] => 0
  | f :: fs => 5 + sizeJ f.2 + sizeMembersJ fs

end

/-- Whether three consecutive backticks occur in the text (such a span
inside the serialized document would close the fenced block early). -/
def hasTriple (l : List Char) : Bool := containsSub l ("```".data)

/-- The backtick character. -/
def btick : Char := Char.ofNat 96

/-- The response layout that `_build_conversation_prompt` instructs the
model to produce (lines 189-197): the three markers around a fenced json
block. -/
def expectedResponseLayout (understanding jsonText changes : String) : String :=
  "UNDERSTANDING: " ++ understanding ++ "\n\nUPDATED_JSON:\n```json\n" ++
    jsonText ++ "\n```\n\nCHANGES: " ++ changes

/-!
## Response parser: `_parse_llm_response` (test.py lines 201-244)

The only raising operation inside the `try` is `json.loads`; its
`JSONDecodeError` is caught at line 239 and yields
`(response, self.current_json, "Failed to parse JSON")`.  The generic
handler at line 242 is unreachable.  Totality of the Lean function is the
"never raises" part of the contract.
-/

/-- `"UNDERSTANDING:"`. -/
def understandingMarker : List Char := "UNDERSTANDING:".data

/-- `"UPDATED_JSON:"`. -/
def updatedJsonMarker : List Char := "UPDATED_JSON:".data

/-- The fenced-block opener searched at line 215. -/
def fenceOpen : List Char := "```json".data

/-- The closing fence searched at line 216. -/
def fenceMark : List Char := "```".data

/-- `"CHANGES:"`. -/
def changesMarker : List Char := "CHANGES:".data

/-- Lines 205-212: the text between `UNDERSTANDING:` and `UPDATED_JSON:`
(or to the end), stripped; empty when the marker is absent. -/
def extractUnderstanding (rd : List Char) : List Char :=
  match findFrom rd understandingMarker 0 with
  | some u0 =>
      (match findFrom rd updatedJsonMarker 0 with
       | some ue => pyStrip (sliceChars rd (u0 + understandingMarker.length) ue)
       | none => pyStrip (rd.drop (u0 + understandingMarker.length)))
  | none => []

/-- Lines 232-235: the text after `CHANGES:`, stripped; empty when the
marker is absent. -/
def extractChanges (rd : List Char) : List Char :=
  match findFrom rd changesMarker 0 with
  | some c0 => pyStrip (rd.drop (c0 + changesMarker.length))
  | none => []

/-- Lines 215-218: the fenced block exists when the ```` ```json ````
opener occurs and a closing ```` ``` ```` occurs at or after the opener
plus seven characters (Python computes that search start as
`json_start + 7` even when `json_start` is `-1`, hence `6` in the `none`
branch). -/
def fencedSpan (rd : List Char) : Option (Nat × Nat) :=
  let jsonStart := findFrom rd fenceOpen 0
  let jsonEnd :=
    match jsonStart with
    | some i => findFrom rd fenceMark (i + 7)
    | none => findFrom rd fenceMark 6
  match jsonStart, jsonEnd with
  | some a, some b => some (a, b)
  | _, _ => none

/-- The regex fallback of lines 223-226: a dot-all greedy search matching
from the first `\x7b` of the text to its last `\x7d`, succeeding when the
first `\x7b` precedes the last `\x7d`. -/
def braceSpan (cs : List Char) : Option (List Char) :=
  match findFrom cs ['\x7b'] 0, findFrom cs.reverse ['\x7d'] 0 with
  | some i, some k =>
      let j := cs.length - 1 - k
      if i < j then some (sliceChars cs i (j + 1)) else none
  | _, _ => none

/-- `_parse_llm_response` (lines 201-244): extract understanding, candidate
document, and change summary from the raw generated text; on JSON decode
failure return the raw text, the fallback document, and a literal failure
summary. -/
def parse_llm_response (response : String) (current_json : JValue) :
    String × JValue × String :=
  let rd := response.data
  let understanding := String.mk (extractUnderstanding rd)
  let changes := String.mk (extractChanges rd)
  match fencedSpan rd with
  | some (a, b) =>
      (match json_loads_chars (pyStrip (sliceChars rd (a + 7) b)) with
       | some j => (understanding, j, changes)
       | none => (response, current_json, "Failed to parse JSON"))
  | none =>
      match braceSpan rd with
      | some m =>
          (match json_loads_chars m with
           | some j => (understanding, j, changes)
           | none => (response, current_json, "Failed to parse JSON"))
      | none => (understanding, current_json, changes)

/-- The document-extraction attempt of `_parse_llm_response` in isolation:
`none` exactly when the function falls back to the current document. -/
def extracted_json (response : String) : Option JValue :=
  match fencedSpan response.data with
  | some (a, b) =>
      json_loads_chars (pyStrip (sliceChars response.data (a + 7) b))
  | none => (braceSpan response.data).bind json_loads_chars

/-- Modelled from the spec: walk from an opening `\x7b`, tracking brace
depth, to its matching `\x7d`, accumulating the span. -/
def scanBalanced : Nat → List Char → List Char → Option (List Char)
  | _, _, [] => none
  | depth, acc, c :: rest =>
      if c = '\x7b' then scanBalanced (depth + 1) (c :: acc) rest
      else if c = '\x7d' then
        if depth = 1 then some (c :: acc).reverse
        else if depth = 0 then none
        else scanBalanced (depth - 1) (c :: acc) rest
      else scanBalanced depth (c :: acc) rest

/-- Modelled from the spec: "scan the full raw text for the first
top-level balanced brace span" — the span from the first `\x7b` of the text
to its matching `\x7d` (the code's greedy regex does not implement this). -/
def specFirstBalancedSpan (cs : List Char) : Option (List Char) :=
  scanBalanced 0 [] (cs.dropWhile fun c => c != '\x7b')

/-!
## Conversation handler state and operations (test.py lines 91-149,
327-351)
-/

/-- One history entry: the Python dicts carry `role`, `content`,
`timestamp` always, plus `changes` on accepted assistant turns and `error`
on rejected ones; `Option` models key presence. -/
structure Turn where
  role : String
  content : String
  timestamp : String
  changes : Option String
  error : Option String
deriving DecidableEq

/-- The mutable fields of `JSONConversationHandler`. -/
structure HandlerState where
  conversation_history : List Turn
  current_json : JValue
  original_text : String

/-- The rejection message built at line 133. -/
def clarificationResponse (explanation : String) : String :=
  "I understand you want to: " ++ explanation ++
    "\n\nHowever, I had trouble creating valid JSON from your request. Could you please clarify what specific changes you'd like me to make?"

/-- The provider-failure message built at line 148. -/
def providerErrorResponse (e : String) : String :=
  "I encountered an error processing your request: " ++ e ++
    ". Could you please rephrase your request?"

/-- `process_user_message` (lines 91-149), parametrised by the parser and
validator it invokes.  The user turn is appended first; the generation
outcome is an input (`Except.error` models the provider raising, caught by
the `except` at line 146, which returns without appending an assistant
turn); a valid candidate is committed, an invalid one leaves the document
unchanged and appends an error-flagged assistant turn.  `ts1`/`ts2` stand
for the two `datetime.now()` reads. -/
def process_user_message_with
    (parseFn : String → JValue → String × JValue × String)
    (validateFn : JValue → Bool)
    (st : HandlerState) (user_message : String)
    (gen : Except String String) (ts1 ts2 : String) :
    (String × JValue × Bool) × HandlerState :=
  let hist1 := st.conversation_history ++ [⟨"user", user_message, ts1, none, none⟩]
  match gen with
  | .error e =>
      ((providerErrorResponse e, st.current_json, false),
        { st with conversation_history := hist1 })
  | .ok response =>
      let parsed := parseFn response st.current_json
      let explanation := parsed.1
      let updated_json := parsed.2.1
      let changes_summary := parsed.2.2
      if validateFn updated_json then
        ((explanation ++ "\n\n**Changes made**: " ++ changes_summary, updated_json, true),
          { st with
              current_json := updated_json,
              conversation_history :=
                hist1 ++ [⟨"assistant", explanation, ts2, some changes_summary, none⟩] })
      else
        ((clarificationResponse explanation, st.current_json, false),
          { st with
              conversation_history :=
                hist1 ++ [⟨"assistant", clarificationResponse explanation, ts2, none,
                           some "Invalid JSON generated"⟩] })

/-- `process_user_message` with the handler's actual parser and validator. -/
def process_user_message (st : HandlerState) (user_message : String)
    (gen : Except String String) (ts1 ts2 : String) :
    (String × JValue × Bool) × HandlerState :=
  process_user_message_with parse_llm_response validate_json_structure
    st user_message gen ts1 ts2

/-- `reset_conversation` (lines 327-330): clear the history, keep the rest. -/
def reset_conversation (st : HandlerState) : HandlerState :=
  { st with conversation_history := [] }

/-- The line-338 test: an assistant turn recording an accepted change. -/
def isAcceptedTurn (t : Turn) : Bool :=
  t.role == "assistant" && t.changes.isSome

/-- Index of the last accepted-change assistant turn, scanning with a
running offset. -/
def lastAcceptedIdxAux : List Turn → Nat → Option Nat
  | [], _ => none
  | t :: ts, i =>
      match lastAcceptedIdxAux ts (i + 1) with
      | some j => some j
      | none => if isAcceptedTurn t then some i else none

/-- Index of the most recent accepted-change assistant turn. -/
def lastAcceptedIdx (h : List Turn) : Option Nat :=
  lastAcceptedIdxAux h 0

/-- The success message returned at line 345. -/
def undoSuccessMessage : String :=
  "Last change has been undone. Please refresh the graph to see the previous state."

/-- `undo_last_change` (lines 332-351): truncate the history to just before
the most recent accepted-change assistant turn, or report failure.  The
Python body cannot raise, so the `except` at line 349 is dead code. -/
def undo_last_change (st : HandlerState) : (Bool × String) × HandlerState :=
  match lastAcceptedIdx st.conversation_history with
  | some i =>
      ((true, undoSuccessMessage),
        { st with conversation_history := st.conversation_history.take i })
  | none => ((false, "No changes found to undo."), st)

/-!
## Concrete documents and inputs used by witnesses and counterexamples
-/

/-- An accepted two-node document with one relationship. -/
def c1ExampleDoc : JValue :=
  .obj [("nodes", .arr [
          .obj [("id", .str "a"), ("name", .str "Alice"), ("type", .str "Person")],
          .obj [("id", .str "x"), ("name", .str "X"), ("type", .str "Technology")]]),
        ("relationships", .arr [
          .obj [("source", .str "a"), ("target", .str "x"), ("type", .str "uses")]])]

/-- A document with two nodes sharing the empty id, which the validator
nevertheless accepts. -/
def c2DupEmptyDoc : JValue :=
  .obj [("nodes", .arr [
          .obj [("id", .str ""), ("name", .str "A"), ("type", .str "T")],
          .obj [("id", .str ""), ("name", .str "B"), ("type", .str "T")]]),
        ("relationships", .arr [])]

/-- The canonical empty document. -/
def emptyDoc : JValue :=
  .obj [("nodes", .arr []), ("relationships", .arr [])]

/-- A session state with empty history and the empty document. -/
def emptySessionState : HandlerState :=
  { conversation_history := [], current_json := emptyDoc, original_text := "" }

/-- A session state whose live document is `None` (which the validator
rejects), with empty history. -/
def nullDocState : HandlerState :=
  { conversation_history := [], current_json := JValue.null, original_text := "" }

/-- A generated text whose fenced block fails to parse but which contains a
perfectly parseable balanced brace span after the fence. -/
def c4FencedBad : String :=
  "```json\nnot json\n``` \x7b\"nodes\": [], \"relationships\": []\x7d"

/-- A generated text with no fence and two balanced brace spans: the greedy
first-`\x7b`-to-last-`\x7d` match is not valid JSON although the first
balanced span is. -/
def c4TwoSpans : String :=
  "\x7b\"nodes\": [], \"relationships\": []\x7d \x7b\"x\": 1\x7d"

/-- The serialized empty document, as it appears in both scan texts. -/
def emptyDocText : String := "\x7b\"nodes\": [], \"relationships\": []\x7d"

/-- A validator-accepted document whose serialization contains a triple
backtick (inside the `name` string), defeating the fenced-block scan. -/
def c8BadDoc : JValue :=
  .obj [("nodes", .arr [.obj [("id", .str "a"), ("name", .str "```"),
          ("type", .str "T")]]),
        ("relationships", .arr [])]

end KG

namespace KG

/-!
# Theorems

Foundational lemmas first, then one theorem per claim (with its witness or
counterexample).
-/

mutual

theorem beqJ_iff : ∀ a b, beqJ a b = true ↔ a = b
  | .str a, .str b => by simp [beqJ]
  | .num a, .num b => by simp [beqJ]
  | .bool a, .bool b => by simp [beqJ]
  | .null, .null => by simp [beqJ]
  | .arr xs, .arr ys => by simp [beqJ, beqListJ_iff xs ys]
  | .obj fs, .obj gs => by simp [beqJ, beqFieldsJ_iff fs gs]
  | .str a, .num b => by simp [beqJ]
  | .str a, .bool b => by simp [beqJ]
  | .str a, .null => by simp [beqJ]
  | .str a, .arr ys => by simp [beqJ]
  | .str a, .obj gs => by simp [beqJ]
  | .num a, .str b => by simp [beqJ]
  | .num a, .bool b => by simp [beqJ]
  | .num a, .null => by simp [beqJ]
  | .num a, .arr ys => by simp [beqJ]
  | .num a, .obj gs => by simp [beqJ]
  | .bool a, .str b => by simp [beqJ]
  | .bool a, .num b => by simp [beqJ]
  | .bool a, .null => by simp [beqJ]
  | .bool a, .arr ys => by simp [beqJ]
  | .bool a, .obj gs => by simp [beqJ]
  | .null, .str b => by simp [beqJ]
  | .null, .num b => by simp [beqJ]
  | .null, .bool b => by simp [beqJ]
  | .null, .arr ys => by simp [beqJ]
  | .null, .obj gs => by simp [beqJ]
  | .arr xs, .str b => by simp [beqJ]
  | .arr xs, .num b => by simp [beqJ]
  | .arr xs, .bool b => by simp [beqJ]
  | .arr xs, .null => by simp [beqJ]
  | .arr xs, .obj gs => by simp [beqJ]
  | .obj fs, .str b => by simp [beqJ]
  | .obj fs, .num b => by simp [beqJ]
  | .obj fs, .bool b => by simp [beqJ]
  | .obj fs, .null => by simp [beqJ]
  | .obj fs, .arr ys => by simp [beqJ]

theorem beqListJ_iff : ∀ xs ys, beqListJ xs ys = true ↔ xs = ys
  | [], [] => by simp [beqListJ]
  | x :: xs, y :: ys => by
      simp [beqListJ, beqJ_iff x y, beqListJ_iff xs ys]
  | [], y :: ys => by simp [beqListJ]
  | x :: xs, [] => by simp [beqListJ]

theorem beqFieldsJ_iff : ∀ fs gs, beqFieldsJ fs gs = true ↔ fs = gs
  | [], [] => by simp [beqFieldsJ]
  | (k, v) :: fs, (l, w) :: gs => by
      simp [beqFieldsJ, beqJ_iff v w, beqFieldsJ_iff fs gs, and_assoc]
  | [], g :: gs => by simp [beqFieldsJ]
  | f :: fs, [] => by cases f; simp [beqFieldsJ]

end

theorem memJ_iff (x : JValue) : ∀ ys, memJ x ys = true ↔ x ∈ ys
  | [] => by simp [memJ]
  | y :: ys => by simp [memJ, beqJ_iff, memJ_iff x ys]

/-!
## Character, digit, and string-literal lemmas for the serializer/parser
round trip
-/

theorem toNat_charOfNat {n : Nat} (h : n.isValidChar) : (Char.ofNat n).toNat = n := by
  rw [Char.ofNat, dif_pos h]
  rfl

theorem isDigit_iff {c : Char} : c.isDigit = true ↔ 48 ≤ c.toNat ∧ c.toNat ≤ 57 := by
  simp only [Char.isDigit, ge_iff_le, Bool.and_eq_true, decide_eq_true_eq]
  constructor
  · rintro ⟨h1, h2⟩
    exact ⟨h1, h2⟩
  · rintro ⟨h1, h2⟩
    exact ⟨h1, h2⟩

/-- digit char of n < 10 -/

theorem char_valid_toNat (c : Char) :
    c.toNat < 0xD800 ∨ (0xDFFF < c.toNat ∧ c.toNat < 0x110000) := by
  have h := c.valid
  simp only [UInt32.isValidChar, Char.toNat] at h ⊢
  rcases h with h | ⟨h1, h2⟩
  · left
    have := @UInt32.toNat_lt_of_lt c.val 0xD800 (by decide) h
    omega
  · right
    constructor
    · have := @UInt32.lt_toNat_of_lt c.val 0xDFFF (by decide) h1
      omega
    · have := @UInt32.toNat_lt_of_lt c.val 0x110000 (by decide) h2
      omega

theorem toNat_digitChar {n : Nat} (h : n < 10) : (digitChar n).toNat = 48 + n := by
  apply toNat_charOfNat
  left
  omega

theorem isDigit_digitChar {n : Nat} (h : n < 10) : (digitChar n).isDigit = true := by
  rw [isDigit_iff, toNat_digitChar h]
  omega

theorem readDigitsAcc_natCharsAux :
    ∀ (fuel n acc : Nat) (cs : List Char), n < fuel →
      ∃ p, 0 < p ∧ n < p ∧
        readDigitsAcc acc (natCharsAux fuel n ++ cs) = readDigitsAcc (acc * p + n) cs
  | 0, n, acc, cs, h => absurd h (Nat.not_lt_zero n)
  | fuel + 1, n, acc, cs, h => by
      by_cases h10 : n < 10
      · refine ⟨10, by omega, by omega, ?_⟩
        simp only [natCharsAux, if_pos h10, List.cons_append, List.nil_append, readDigitsAcc,
          isDigit_digitChar h10, if_pos, toNat_digitChar h10]
        have harith : 10 * acc + (48 + n - 48) = acc * 10 + n := by omega
        rw [harith]
      · have hrec : n / 10 < fuel := by omega
        obtain ⟨p, hp, hnp, heq⟩ := readDigitsAcc_natCharsAux fuel (n / 10) acc (digitChar (n % 10) :: cs) hrec
        refine ⟨p * 10, by omega, by omega, ?_⟩
        simp only [natCharsAux, if_neg h10, List.append_assoc, List.cons_append, List.nil_append]
        rw [heq]
        have h10b : n % 10 < 10 := Nat.mod_lt n (by omega)
        simp only [readDigitsAcc, isDigit_digitChar h10b, if_pos, toNat_digitChar h10b]
        have hm : acc * (p * 10) = 10 * (acc * p) := by ring
        have harith : 10 * (acc * p + n / 10) + (48 + n % 10 - 48) = acc * (p * 10) + n := by
          omega
        rw [harith]

theorem hexVal_hexDigitChar : ∀ n < 16, hexVal (hexDigitChar n) = some n := by decide

theorem escapeChar_eq (c : Char) :
    (c = '"' ∧ escapeChar c = ['\\', '"']) ∨
    (c = '\\' ∧ escapeChar c = ['\\', '\\']) ∨
    (c = '\n' ∧ escapeChar c = ['\\', 'n']) ∨
    (c = '\r' ∧ escapeChar c = ['\\', 'r']) ∨
    (c = '\t' ∧ escapeChar c = ['\\', 't']) ∨
    (c = '\x08' ∧ escapeChar c = ['\\', 'b']) ∨
    (c = '\x0c' ∧ escapeChar c = ['\\', 'f']) ∨
    (c.toNat < 32 ∧ escapeChar c = '\\' :: 'u' :: toHex4 c.toNat) ∨
    (32 ≤ c.toNat ∧ c.toNat ≤ 126 ∧ c ≠ '"' ∧ c ≠ '\\' ∧ escapeChar c = [c]) ∨
    (126 < c.toNat ∧ c.toNat ≤ 0xFFFF ∧ escapeChar c = '\\' :: 'u' :: toHex4 c.toNat) ∨
    (0xFFFF < c.toNat ∧ c.toNat < 0x110000 ∧
      escapeChar c = '\\' :: 'u' :: toHex4 (0xD800 + (c.toNat - 0x10000) / 0x400) ++
        '\\' :: 'u' :: toHex4 (0xDC00 + (c.toNat - 0x10000) % 0x400)) := by
  by_cases h1 : c = '"'
  · exact Or.inl ⟨h1, by simp [escapeChar, h1]⟩
  by_cases h2 : c = '\\'
  · exact Or.inr (Or.inl ⟨h2, by simp [escapeChar, h1, h2]⟩)
  by_cases h3 : c = '\n'
  · exact Or.inr (Or.inr (Or.inl ⟨h3, by simp [escapeChar, h1, h2, h3]⟩))
  by_cases h4 : c = '\r'
  · exact Or.inr (Or.inr (Or.inr (Or.inl ⟨h4, by simp [escapeChar, h1, h2, h3, h4]⟩)))
  by_cases h5 : c = '\t'
  · exact Or.inr (Or.inr (Or.inr (Or.inr (Or.inl ⟨h5, by
      simp [escapeChar, h1, h2, h3, h4, h5]⟩))))
  by_cases h6 : c = '\x08'
  · exact Or.inr (Or.inr (Or.inr (Or.inr (Or.inr (Or.inl ⟨h6, by
      simp [escapeChar, h1, h2, h3, h4, h5, h6]⟩)))))
  by_cases h7 : c = '\x0c'
  · exact Or.inr (Or.inr (Or.inr (Or.inr (Or.inr (Or.inr (Or.inl ⟨h7, by
      simp [escapeChar, h1, h2, h3, h4, h5, h6, h7]⟩))))))
  by_cases h8 : c.toNat < 32
  · exact Or.inr (Or.inr (Or.inr (Or.inr (Or.inr (Or.inr (Or.inr (Or.inl ⟨h8, by
      simp [escapeChar, h1, h2, h3, h4, h5, h6, h7, h8]⟩)))))))
  by_cases h9 : c.toNat ≤ 126
  · refine Or.inr (Or.inr (Or.inr (Or.inr (Or.inr (Or.inr (Or.inr (Or.inr (Or.inl
      ⟨by omega, h9, h1, h2, by simp [escapeChar, h1, h2, h3, h4, h5, h6, h7, h8, h9]⟩))))))))
  by_cases h10 : c.toNat ≤ 0xFFFF
  · refine Or.inr (Or.inr (Or.inr (Or.inr (Or.inr (Or.inr (Or.inr (Or.inr (Or.inr (Or.inl
      ⟨by omega, h10, by simp [escapeChar, h1, h2, h3, h4, h5, h6, h7, h8, h9, h10]⟩)))))))))
  · have hv := char_valid_toNat c
    refine Or.inr (Or.inr (Or.inr (Or.inr (Or.inr (Or.inr (Or.inr (Or.inr (Or.inr (Or.inr
      ⟨by omega, by omega, by simp [escapeChar, h1, h2, h3, h4, h5, h6, h7, h8, h9, h10]⟩)))))))))

theorem parseHex4_cons4 (h1 h2 h3 h4 : Char) (rest : List Char) :
    parseHex4 (h1 :: h2 :: h3 :: h4 :: rest) =
      hexQuad (hexVal h1) (hexVal h2) (hexVal h3) (hexVal h4) rest := rfl

theorem hexQuad_some (a b c d : Nat) (rest : List Char) :
    hexQuad (some a) (some b) (some c) (some d) rest =
      some (a * 4096 + b * 256 + c * 16 + d, rest) := rfl

theorem toHex4_cons (n : Nat) :
    toHex4 n = hexDigitChar (n / 4096 % 16) :: hexDigitChar (n / 256 % 16) ::
      hexDigitChar (n / 16 % 16) :: hexDigitChar (n % 16) :: [] := rfl

theorem parseHex4_toHex4 (n : Nat) (h : n ≤ 0xFFFF) (rest : List Char) :
    parseHex4 (toHex4 n ++ rest) = some (n, rest) := by
  have e1 := hexVal_hexDigitChar (n / 4096 % 16) (by omega)
  have e2 := hexVal_hexDigitChar (n / 256 % 16) (by omega)
  have e3 := hexVal_hexDigitChar (n / 16 % 16) (by omega)
  have e4 := hexVal_hexDigitChar (n % 16) (by omega)
  rw [toHex4_cons, List.cons_append, List.cons_append, List.cons_append, List.cons_append,
    List.nil_append, parseHex4_cons4, e1, e2, e3, e4, hexQuad_some]
  have harith : n / 4096 % 16 * 4096 + n / 256 % 16 * 256 + n / 16 % 16 * 16 + n % 16 = n := by
    omega
  rw [harith]

theorem surrogatePairRest_cons2 (n : Nat) (b u : Char) (tl : List Char) :
    surrogatePairRest n (b :: u :: tl) =
      (if b = '\\' ∧ u = 'u' then
        match parseHex4 tl with
        | some (m, rest3) =>
            if 0xDC00 ≤ m ∧ m ≤ 0xDFFF then
              some (Char.ofNat (0x10000 + (n - 0xD800) * 0x400 + (m - 0xDC00)), rest3)
            else none
        | none => none
      else none) := rfl

theorem surrogatePairRest_step (n : Nat) (b u : Char) (tl : List Char)
    (hb : b = '\\') (hu : u = 'u') (m : Nat) (r : List Char)
    (hp : parseHex4 tl = some (m, r)) :
    surrogatePairRest n (b :: u :: tl) =
      (if 0xDC00 ≤ m ∧ m ≤ 0xDFFF then
        some (Char.ofNat (0x10000 + (n - 0xD800) * 0x400 + (m - 0xDC00)), r)
      else none) := by
  rw [surrogatePairRest_cons2, if_pos ⟨hb, hu⟩, hp]

theorem parseUEscape_step (cs : List Char) (n : Nat) (r : List Char)
    (h : parseHex4 cs = some (n, r)) :
    parseUEscape cs =
      (if 0xD800 ≤ n ∧ n ≤ 0xDBFF then surrogatePairRest n r
       else if 0xDC00 ≤ n ∧ n ≤ 0xDFFF then none
       else some (Char.ofNat n, r)) := by
  unfold parseUEscape
  rw [h]

theorem parseUEscape_toHex4_bmp (n : Nat) (hle : n ≤ 0xFFFF)
    (hno : n < 0xD800 ∨ 0xDFFF < n) (rest : List Char) :
    parseUEscape (toHex4 n ++ rest) = some (Char.ofNat n, rest) := by
  rw [parseUEscape_step (toHex4 n ++ rest) n rest (parseHex4_toHex4 n hle rest),
    if_neg (by omega : ¬(0xD800 ≤ n ∧ n ≤ 0xDBFF)),
    if_neg (by omega : ¬(0xDC00 ≤ n ∧ n ≤ 0xDFFF))]

theorem parseUEscape_toHex4_pair (m : Nat) (h1 : 0x10000 ≤ m) (h2 : m < 0x110000)
    (rest : List Char) :
    parseUEscape (toHex4 (0xD800 + (m - 0x10000) / 0x400) ++
        '\\' :: 'u' :: (toHex4 (0xDC00 + (m - 0x10000) % 0x400) ++ rest)) =
      some (Char.ofNat m, rest) := by
  have hhi : 0xD800 + (m - 0x10000) / 0x400 ≤ 0xFFFF := by omega
  have hlo : 0xDC00 + (m - 0x10000) % 0x400 ≤ 0xFFFF := by omega
  rw [parseUEscape_step _ (0xD800 + (m - 0x10000) / 0x400)
      ('\\' :: 'u' :: (toHex4 (0xDC00 + (m - 0x10000) % 0x400) ++ rest))
      (parseHex4_toHex4 _ hhi _),
    if_pos (⟨by omega, by omega⟩ :
      0xD800 ≤ 0xD800 + (m - 0x10000) / 0x400 ∧ 0xD800 + (m - 0x10000) / 0x400 ≤ 0xDBFF)]
  rw [surrogatePairRest_step _ '\\' 'u' _ rfl rfl _ rest (parseHex4_toHex4 _ hlo rest),
    if_pos (⟨by omega, by omega⟩ :
      0xDC00 ≤ 0xDC00 + (m - 0x10000) % 0x400 ∧ 0xDC00 + (m - 0x10000) % 0x400 ≤ 0xDFFF)]
  have harith : 0x10000 + (0xD800 + (m - 0x10000) / 0x400 - 0xD800) * 0x400 +
      (0xDC00 + (m - 0x10000) % 0x400 - 0xDC00) = m := by omega
  rw [harith]

theorem consStr_some (ch : Char) (l rest : List Char) :
    consStr ch (some (l, rest)) = some (ch :: l, rest) := rfl

theorem psb_quote (fuel : Nat) (rest : List Char) :
    parseStringBody (fuel + 1) ('"' :: rest) = some ([], rest) := rfl

theorem psb_esc_u (fuel : Nat) (rest2 : List Char) (ch : Char) (rest3 : List Char)
    (h : parseUEscape rest2 = some (ch, rest3)) :
    parseStringBody (fuel + 1) ('\\' :: 'u' :: rest2) =
      consStr ch (parseStringBody fuel rest3) := by
  have e : parseStringBody (fuel + 1) ('\\' :: 'u' :: rest2) =
      (match parseUEscape rest2 with
       | some p => consStr p.1 (parseStringBody fuel p.2)
       | none => none) := rfl
  rw [e, h]

theorem psb_plain (fuel : Nat) (c : Char) (rest : List Char)
    (h1 : ¬c = '"') (h2 : ¬c = '\\') (h3 : ¬c.toNat < 32) :
    parseStringBody (fuel + 1) (c :: rest) = consStr c (parseStringBody fuel rest) := by
  have e : parseStringBody (fuel + 1) (c :: rest) =
      (if c = '"' then some ([], rest)
       else if c = '\\' then
         match rest with
         | [] => none
         | e :: rest2 =>
             if e = 'u' then
               match parseUEscape rest2 with
               | some p => consStr p.1 (parseStringBody fuel p.2)
               | none => none
             else
               match escCharOf e with
               | some ch => consStr ch (parseStringBody fuel rest2)
               | none => none
       else if c.toNat < 32 then none
       else consStr c (parseStringBody fuel rest)) := rfl
  rw [e, if_neg h1, if_neg h2, if_neg h3]

theorem psb_esc_quote (fuel : Nat) (tl : List Char) :
    parseStringBody (fuel + 1) ('\\' :: '"' :: tl) = consStr '"' (parseStringBody fuel tl) := rfl

theorem psb_esc_backslash (fuel : Nat) (tl : List Char) :
    parseStringBody (fuel + 1) ('\\' :: '\\' :: tl) =
      consStr '\\' (parseStringBody fuel tl) := rfl

theorem psb_esc_n (fuel : Nat) (tl : List Char) :
    parseStringBody (fuel + 1) ('\\' :: 'n' :: tl) = consStr '\n' (parseStringBody fuel tl) := rfl

theorem psb_esc_r (fuel : Nat) (tl : List Char) :
    parseStringBody (fuel + 1) ('\\' :: 'r' :: tl) = consStr '\r' (parseStringBody fuel tl) := rfl

theorem psb_esc_t (fuel : Nat) (tl : List Char) :
    parseStringBody (fuel + 1) ('\\' :: 't' :: tl) = consStr '\t' (parseStringBody fuel tl) := rfl

theorem psb_esc_b (fuel : Nat) (tl : List Char) :
    parseStringBody (fuel + 1) ('\\' :: 'b' :: tl) =
      consStr '\x08' (parseStringBody fuel tl) := rfl

theorem psb_esc_f (fuel : Nat) (tl : List Char) :
    parseStringBody (fuel + 1) ('\\' :: 'f' :: tl) =
      consStr '\x0c' (parseStringBody fuel tl) := rfl

theorem parseStringBody_escapeChars :
    ∀ (l rest : List Char) (fuel : Nat), l.length + 1 ≤ fuel →
      parseStringBody fuel (escapeChars l ++ '"' :: rest) = some (l, rest)
  | [], rest, fuel + 1, hf => by
      have : escapeChars [] ++ '"' :: rest = '"' :: rest := rfl
      rw [this, psb_quote]
  | c :: l, rest, fuel + 1, hf => by
      have IH := parseStringBody_escapeChars l rest fuel (by simp at hf; omega)
      have hesc : escapeChars (c :: l) ++ '"' :: rest =
          escapeChar c ++ (escapeChars l ++ '"' :: rest) := by
        simp [escapeChars]
      rw [hesc]
      rcases escapeChar_eq c with ⟨hc, he⟩ | ⟨hc, he⟩ | ⟨hc, he⟩ | ⟨hc, he⟩ | ⟨hc, he⟩ |
        ⟨hc, he⟩ | ⟨hc, he⟩ | ⟨hc, he⟩ | ⟨hc1, hc2, hc3, hc4, he⟩ | ⟨hc1, hc2, he⟩ |
        ⟨hc1, hc2, he⟩
      · rw [he, List.cons_append, List.cons_append, List.nil_append, psb_esc_quote, IH, consStr_some, hc]
      · rw [he, List.cons_append, List.cons_append, List.nil_append, psb_esc_backslash, IH, consStr_some, hc]
      · rw [he, List.cons_append, List.cons_append, List.nil_append, psb_esc_n, IH, consStr_some, hc]
      · rw [he, List.cons_append, List.cons_append, List.nil_append, psb_esc_r, IH, consStr_some, hc]
      · rw [he, List.cons_append, List.cons_append, List.nil_append, psb_esc_t, IH, consStr_some, hc]
      · rw [he, List.cons_append, List.cons_append, List.nil_append, psb_esc_b, IH, consStr_some, hc]
      · rw [he, List.cons_append, List.cons_append, List.nil_append, psb_esc_f, IH, consStr_some, hc]
      · rw [he]
        simp only [List.cons_append, List.append_assoc]
        rw [psb_esc_u fuel _ (Char.ofNat c.toNat) _
            (parseUEscape_toHex4_bmp c.toNat (by omega) (by omega) _),
          IH, consStr_some, Char.ofNat_toNat]
      · rw [he, List.cons_append, List.nil_append,
          psb_plain fuel c _ hc3 hc4 (by omega), IH, consStr_some]
      · have hv := char_valid_toNat c
        rw [he]
        simp only [List.cons_append, List.append_assoc]
        rw [psb_esc_u fuel _ (Char.ofNat c.toNat) _
            (parseUEscape_toHex4_bmp c.toNat hc2 (by omega) _),
          IH, consStr_some, Char.ofNat_toNat]
      · rw [he]
        simp only [List.cons_append, List.append_assoc]
        rw [psb_esc_u fuel _ (Char.ofNat c.toNat) _
            (parseUEscape_toHex4_pair c.toNat (by omega) hc2 _),
          IH, consStr_some, Char.ofNat_toNat]

theorem sepOk_numTerm {cs : List Char} (h : sepOk cs = true) : numTerm cs = true := by
  cases cs with
  | nil => rfl
  | cons c t =>
    simp only [sepOk, Bool.not_eq_true', Bool.or_eq_false_iff] at h
    simp only [numTerm, Bool.not_eq_true', Bool.or_eq_false_iff]
    exact ⟨⟨h.1.1.2, h.1.2⟩, h.2⟩

theorem readDigitsAcc_stop (n : Nat) (cs : List Char) (hcs : sepOk cs = true) :
    readDigitsAcc n cs = (n, cs) := by
  cases cs with
  | nil => rfl
  | cons c t =>
    simp only [sepOk, Bool.not_eq_true', Bool.or_eq_false_iff] at hcs
    simp only [readDigitsAcc]
    rw [if_neg (by simp [hcs.1.1.1])]

theorem readDigitsAcc_natChars (n : Nat) (cs : List Char) (hcs : sepOk cs = true) :
    readDigitsAcc 0 (natChars n ++ cs) = (n, cs) := by
  obtain ⟨p, hp, hnp, heq⟩ := readDigitsAcc_natCharsAux (n + 1) n 0 cs (by omega)
  rw [natChars, heq]
  have h0 : 0 * p + n = n := by omega
  rw [h0, readDigitsAcc_stop n cs hcs]

theorem natCharsAux_head :
    ∀ (fuel n : Nat), n < fuel → ∃ c t, natCharsAux fuel n = c :: t ∧
      48 ≤ c.toNat ∧ c.toNat ≤ 57 ∧ (0 < n → 48 < c.toNat)
  | 0, n, h => absurd h (Nat.not_lt_zero n)
  | fuel + 1, n, h => by
      by_cases h10 : n < 10
      · refine ⟨digitChar n, [], by simp [natCharsAux, h10], ?_, ?_, ?_⟩
        · rw [toNat_digitChar h10]; omega
        · rw [toNat_digitChar h10]; omega
        · intro hn; rw [toNat_digitChar h10]; omega
      · obtain ⟨c, t, he, hge, hle, hpos⟩ := natCharsAux_head fuel (n / 10) (by omega)
        refine ⟨c, t ++ [digitChar (n % 10)], ?_, hge, hle, fun _ => hpos (by omega)⟩
        simp only [natCharsAux, if_neg h10, he, List.cons_append]

theorem parseIntPart_natChars (n : Nat) (cs : List Char) (hcs : sepOk cs = true) :
    parseIntPart (natChars n ++ cs) = some (n, cs) := by
  by_cases h0 : n = 0
  · subst h0
    have : natChars 0 = ['0'] := rfl
    rw [this]
    simp [parseIntPart]
  · obtain ⟨c, t, he, hge, hle, hpos⟩ := natCharsAux_head (n + 1) n (by omega)
    have hnc : natChars n = c :: t := by rw [natChars, he]
    rw [hnc, List.cons_append]
    have hc0 : ¬c = '0' := by
      intro hc
      subst hc
      have h1 := hpos (by omega)
      have h2 : ('0' : Char).toNat = 48 := rfl
      omega
    have hdig : c.isDigit = true := isDigit_iff.mpr ⟨hge, hle⟩
    have e : parseIntPart (c :: (t ++ cs)) =
        (if c = '0' then some (0, t ++ cs)
         else if c.isDigit then some (readDigitsAcc 0 (c :: (t ++ cs)))
         else none) := rfl
    rw [e, if_neg hc0, if_pos hdig]
    rw [show c :: (t ++ cs) = (c :: t) ++ cs from rfl, ← hnc,
      readDigitsAcc_natChars n cs hcs]

theorem parseNumber_minus (rest : List Char) (n : Nat) (r : List Char)
    (h : parseIntPart rest = some (n, r)) (ht : numTerm r = true) :
    parseNumber ('-' :: rest) = some (.num (-(n : Int)), r) := by
  have e : parseNumber ('-' :: rest) =
      (match parseIntPart rest with
       | some (n, r) => if numTerm r then some (JValue.num (-(n : Int)), r) else none
       | none => none) := rfl
  rw [e, h]
  simp only [ht, if_pos]

theorem parseNumber_plain (c : Char) (rest : List Char) (n : Nat) (r : List Char)
    (hc : ¬c = '-') (h : parseIntPart (c :: rest) = some (n, r)) (ht : numTerm r = true) :
    parseNumber (c :: rest) = some (.num (n : Int), r) := by
  have e : parseNumber (c :: rest) =
      (if c = '-' then
        match parseIntPart rest with
        | some (n, r) => if numTerm r then some (JValue.num (-(n : Int)), r) else none
        | none => none
      else
        match parseIntPart (c :: rest) with
        | some (n, r) => if numTerm r then some (JValue.num (n : Int), r) else none
        | none => none) := rfl
  rw [e, if_neg hc, h]
  simp only [ht, if_pos]

theorem parseNumber_intChars (m : Int) (cs : List Char) (hcs : sepOk cs = true) :
    parseNumber (intChars m ++ cs) = some (.num m, cs) := by
  cases m with
  | ofNat n =>
    by_cases h0 : n = 0
    · subst h0
      have hx : intChars (Int.ofNat 0) ++ cs = '0' :: cs := rfl
      rw [hx]
      exact parseNumber_plain '0' cs 0 cs (by decide)
        (by simp [parseIntPart]) (sepOk_numTerm hcs)
    · obtain ⟨c, t, he, hge, hle, hpos⟩ := natCharsAux_head (n + 1) n (by omega)
      have hinm : intChars (Int.ofNat n) ++ cs = c :: (t ++ cs) := by
        simp only [intChars, natChars, he, List.cons_append]
      rw [hinm]
      have hcm : ¬c = '-' := by
        intro hc; subst hc
        have h2 : ('-' : Char).toNat = 45 := rfl
        omega
      refine parseNumber_plain c (t ++ cs) n cs hcm ?_ (sepOk_numTerm hcs)
      rw [show c :: (t ++ cs) = (c :: t) ++ cs from rfl]
      have hct : (c :: t) = natChars n := by rw [natChars, he]
      rw [hct, parseIntPart_natChars n cs hcs]
  | negSucc k =>
    have hx : intChars (Int.negSucc k) ++ cs = '-' :: (natChars (k + 1) ++ cs) := rfl
    rw [hx]
    rw [parseNumber_minus (natChars (k + 1) ++ cs) (k + 1) cs
      (parseIntPart_natChars (k + 1) cs hcs) (sepOk_numTerm hcs)]
    simp [Int.negSucc_eq]

/-- C1: for every candidate accepted by `_validate_json_structure`, every
relationship carries `source` and `target` values and both are members of
the candidate's node-id set. -/
theorem validator_referential_integrity (j : JValue)
    (h : validate_json_structure j = true) :
    ∀ r ∈ docRels j, ∃ s t,
      itemField r "source" = some s ∧ itemField r "target" = some t ∧
        s ∈ docNodeIds j ∧ t ∈ docNodeIds j := by
  intro r hr
  cases j with
  | obj fields =>
    simp only [validate_json_structure] at h
    cases hns : lookupField fields "nodes" with
    | none => rw [hns] at h; cases h
    | some nv =>
      cases hrs : lookupField fields "relationships" with
      | none => rw [hns, hrs] at h; cases nv <;> cases h
      | some rv =>
        rw [hns, hrs] at h
        cases nv with
        | arr nodes =>
          cases rv with
          | arr rels =>
            simp only [Bool.and_eq_true, List.all_eq_true] at h
            obtain ⟨⟨hnodes, hrels⟩, hrefs⟩ := h
            have hrmem : r ∈ rels := by
              simpa [docRels, hrs] using hr
            have href := hrefs r hrmem
            cases r with
            | obj f =>
              simp only [relRefsOk] at href
              cases hs : lookupField f "source" with
              | none => rw [hs] at href; cases href
              | some s =>
                cases ht : lookupField f "target" with
                | none => rw [hs, ht] at href; simp at href
                | some t =>
                  rw [hs, ht] at href
                  simp only [Bool.and_eq_true] at href
                  refine ⟨s, t, by simp [itemField, hs], by simp [itemField, ht], ?_, ?_⟩
                  · have := (memJ_iff s (nodeIdsOf nodes)).mp href.1
                    simpa [docNodeIds, docNodes, hns] using this
                  · have := (memJ_iff t (nodeIdsOf nodes)).mp href.2
                    simpa [docNodeIds, docNodes, hns] using this
            | str a => simp [relRefsOk] at href
            | num a => simp [relRefsOk] at href
            | bool a => simp [relRefsOk] at href
            | null => simp [relRefsOk] at href
            | arr a => simp [relRefsOk] at href
          | str a => cases h
          | num a => cases h
          | bool a => cases h
          | null => cases h
          | obj a => cases h
        | str a => cases h
        | num a => cases h
        | bool a => cases h
        | null => cases h
        | obj a => cases h
  | str s => cases h
  | num n => cases h
  | bool b => cases h
  | null => cases h
  | arr xs => cases h

/-- Witness for C1 at a concrete accepted document. -/
theorem validator_referential_integrity_witness :
    validate_json_structure c1ExampleDoc = true ∧
      ∀ r ∈ docRels c1ExampleDoc, ∃ s t,
        itemField r "source" = some s ∧ itemField r "target" = some t ∧
          s ∈ docNodeIds c1ExampleDoc ∧ t ∈ docNodeIds c1ExampleDoc :=
  ⟨by decide, validator_referential_integrity c1ExampleDoc (by decide)⟩

/-- C2 counterexample: the validator accepts a candidate whose two nodes
share the id `""` — an id that is moreover empty — refuting the claim that
accepted candidates have non-empty, pairwise-distinct node ids. -/
theorem validator_accepts_empty_duplicate_ids :
    validate_json_structure c2DupEmptyDoc = true ∧
      docNodeIds c2DupEmptyDoc = [.str "", .str ""] :=
  ⟨by decide, rfl⟩

/-- C2 amended: the validator guarantees only that every node of an
accepted candidate is a dict carrying `id`, `name`, and `type` keys; it
imposes no non-emptiness, string-typing, or distinctness on the ids. -/
theorem validator_node_shape_only (j : JValue)
    (h : validate_json_structure j = true) :
    ∀ n ∈ docNodes j, ∃ f, n = JValue.obj f ∧
      (lookupField f "id").isSome ∧ (lookupField f "name").isSome ∧
        (lookupField f "type").isSome := by
  intro n hn
  cases j with
  | obj fields =>
    simp only [validate_json_structure] at h
    cases hns : lookupField fields "nodes" with
    | none => rw [hns] at h; cases h
    | some nv =>
      cases hrs : lookupField fields "relationships" with
      | none => rw [hns, hrs] at h; cases nv <;> cases h
      | some rv =>
        rw [hns, hrs] at h
        cases nv with
        | arr nodes =>
          cases rv with
          | arr rels =>
            simp only [Bool.and_eq_true, List.all_eq_true] at h
            obtain ⟨⟨hnodes, _⟩, _⟩ := h
            have hmem : n ∈ nodes := by simpa [docNodes, hns] using hn
            have hok := hnodes n hmem
            cases n with
            | obj f =>
              simp only [nodeOk] at hok
              simp only [Bool.and_eq_true] at hok
              exact ⟨f, rfl, hok.1.1, hok.1.2, hok.2⟩
            | str a => simp [nodeOk] at hok
            | num a => simp [nodeOk] at hok
            | bool a => simp [nodeOk] at hok
            | null => simp [nodeOk] at hok
            | arr a => simp [nodeOk] at hok
          | str a => cases h
          | num a => cases h
          | bool a => cases h
          | null => cases h
          | obj a => cases h
        | str a => cases h
        | num a => cases h
        | bool a => cases h
        | null => cases h
        | obj a => cases h
  | str s => cases h
  | num n => cases h
  | bool b => cases h
  | null => cases h
  | arr xs => cases h

/-- Witness for the amended C2 at a concrete accepted document. -/
theorem validator_node_shape_only_witness :
    validate_json_structure c2DupEmptyDoc = true ∧
      ∀ n ∈ docNodes c2DupEmptyDoc, ∃ f, n = JValue.obj f ∧
        (lookupField f "id").isSome ∧ (lookupField f "name").isSome ∧
          (lookupField f "type").isSome :=
  ⟨by decide, validator_node_shape_only c2DupEmptyDoc (by decide)⟩

/-- C3: the response parser is a total function ("never raises" in the
embedding), and whenever its document-extraction attempt yields nothing —
fenced block or brace scan missing or undecodable — the returned candidate
document is the fallback document, unchanged. -/
theorem response_parser_fallback_unchanged (response : String) (current : JValue)
    (h : extracted_json response = none) :
    (parse_llm_response response current).2.1 = current := by
  simp only [extracted_json] at h
  simp only [parse_llm_response]
  cases hf : fencedSpan response.data with
  | some ab =>
    obtain ⟨a, b⟩ := ab
    rw [hf] at h
    simp only [] at h
    simp [h]
  | none =>
    rw [hf] at h
    cases hb : braceSpan response.data with
    | some m =>
      rw [hb] at h
      simp only [Option.some_bind] at h
      simp [h]
    | none => simp

/-- Witness for C3 on the inputs named by the claim: the empty string, a
malformed-brace text, a marker-free text, and an undecodable brace span. -/
theorem response_parser_fallback_unchanged_witness :
    (extracted_json "" = none ∧
      (parse_llm_response "" JValue.null).2.1 = JValue.null) ∧
    (extracted_json "\x7bbroken" = none ∧
      (parse_llm_response "\x7bbroken" JValue.null).2.1 = JValue.null) ∧
    (extracted_json "no markers here" = none ∧
      (parse_llm_response "no markers here" JValue.null).2.1 = JValue.null) ∧
    (extracted_json "\x7bnot json\x7d" = none ∧
      (parse_llm_response "\x7bnot json\x7d" JValue.null).2.1 = JValue.null) :=
  ⟨⟨rfl, response_parser_fallback_unchanged "" JValue.null rfl⟩,
   ⟨rfl, response_parser_fallback_unchanged "\x7bbroken" JValue.null rfl⟩,
   ⟨rfl, response_parser_fallback_unchanged "no markers here" JValue.null rfl⟩,
   ⟨rfl, response_parser_fallback_unchanged "\x7bnot json\x7d" JValue.null rfl⟩⟩

/-- C4 counterexample: two concrete refutations of the claimed scan phase.
First, when the fenced block is present but undecodable the code returns
the fallback instead of scanning, although the text contains a parseable
first balanced brace span.  Second, even with no fence the code matches
greedily from the first `\x7b` to the last `\x7d` — not the first balanced
span — so a text whose first balanced span parses still falls back. -/
theorem scan_phase_counterexample :
    (specFirstBalancedSpan c4FencedBad.data = some emptyDocText.data ∧
      json_loads_chars emptyDocText.data = some emptyDoc ∧
      emptyDoc ≠ JValue.null ∧
      (parse_llm_response c4FencedBad JValue.null).2.1 = JValue.null) ∧
    (specFirstBalancedSpan c4TwoSpans.data = some emptyDocText.data ∧
      fencedSpan c4TwoSpans.data = none ∧
      (parse_llm_response c4TwoSpans JValue.null).2.1 = JValue.null) :=
  ⟨⟨rfl, rfl, by simp [emptyDoc], rfl⟩, ⟨rfl, rfl, rfl⟩⟩

/-- C4 amended: when the fenced block is absent the parser scans the raw
text for the greedy first-`\x7b`-to-last-`\x7d` span and adopts it exactly
when it decodes; when the fenced block is present but its content fails to
decode, the parser returns the fallback immediately, without scanning. -/
theorem scan_phase_behavior (response : String) (current : JValue) :
    (fencedSpan response.data = none →
      (parse_llm_response response current).2.1 =
        (match (braceSpan response.data).bind json_loads_chars with
         | some j => j
         | none => current)) ∧
    (∀ a b, fencedSpan response.data = some (a, b) →
      json_loads_chars (pyStrip (sliceChars response.data (a + 7) b)) = none →
      parse_llm_response response current =
        (response, current, "Failed to parse JSON")) := by
  constructor
  · intro hf
    simp only [parse_llm_response, hf]
    cases hb : braceSpan response.data with
    | some m =>
      cases hm : json_loads_chars m with
      | some j => simp [hm]
      | none => simp [hm]
    | none => simp
  · intro a b hf hl
    simp only [parse_llm_response, hf, hl]

/-- Witness for the amended C4: a fence-free text whose greedy span decodes
to the empty document, and a fenced-but-undecodable text that returns the
fallback. -/
theorem scan_phase_behavior_witness :
    (parse_llm_response emptyDocText JValue.null).2.1 = emptyDoc ∧
    parse_llm_response c4FencedBad JValue.null =
      (c4FencedBad, JValue.null, "Failed to parse JSON") :=
  ⟨by
    have h := (scan_phase_behavior emptyDocText JValue.null).1 rfl
    simpa using h,
   (scan_phase_behavior c4FencedBad JValue.null).2 0 17 rfl rfl⟩

/-- C5 counterexample: when the generation call raises, the handler appends
the user turn but no assistant turn — the history grows by one entry, not
two, refuting "exactly one assistant turn per call regardless of outcome". -/
theorem submit_failure_appends_no_assistant_turn :
    (process_user_message emptySessionState "hi" (Except.error "boom") "t1" "t2").2.conversation_history
        = [⟨"user", "hi", "t1", none, none⟩] ∧
    ((process_user_message emptySessionState "hi" (Except.error "boom") "t1" "t2").2.conversation_history.filter
        fun t => t.role == "assistant").length = 0 :=
  ⟨rfl, rfl⟩

/-- C5 amended: every call appends exactly one user turn; a call whose
generation succeeds additionally appends exactly one assistant turn, while
a call whose generation raises appends none. -/
theorem submit_turn_accounting (st : HandlerState) (msg ts1 ts2 : String) :
    (∀ e, (process_user_message st msg (.error e) ts1 ts2).2.conversation_history =
        st.conversation_history ++ [⟨"user", msg, ts1, none, none⟩]) ∧
    (∀ resp, ∃ t : Turn, t.role = "assistant" ∧
      (process_user_message st msg (.ok resp) ts1 ts2).2.conversation_history =
        st.conversation_history ++ [⟨"user", msg, ts1, none, none⟩, t]) := by
  constructor
  · intro e
    rfl
  · intro resp
    simp only [process_user_message, process_user_message_with]
    split
    · refine ⟨⟨"assistant", (parse_llm_response resp st.current_json).1, ts2,
        some (parse_llm_response resp st.current_json).2.2, none⟩, rfl, by simp⟩
    · refine ⟨⟨"assistant", clarificationResponse (parse_llm_response resp st.current_json).1,
        ts2, none, some "Invalid JSON generated"⟩, rfl, by simp⟩

/-- C6: on a provider error the outcome is invalid and carries the
unchanged document, the result does not depend on the parser or validator
(they are not invoked), and the state change is exactly the user-turn
append — the model returns normally, i.e. the exception is not propagated. -/
theorem submit_provider_failure_isolated
    (p1 p2 : String → JValue → String × JValue × String) (v1 v2 : JValue → Bool)
    (st : HandlerState) (msg e ts1 ts2 : String) :
    process_user_message_with p1 v1 st msg (.error e) ts1 ts2 =
      process_user_message_with p2 v2 st msg (.error e) ts1 ts2 ∧
    process_user_message st msg (.error e) ts1 ts2 =
      ((providerErrorResponse e, st.current_json, false),
        { st with conversation_history :=
            st.conversation_history ++ [⟨"user", msg, ts1, none, none⟩] }) :=
  ⟨rfl, rfl⟩

/-- C7: when the extracted candidate fails validation, the call leaves the
live document unchanged, returns the clarification text with validity
`false`, and appends the user turn plus an assistant turn flagged with
`error = "Invalid JSON generated"`. -/
theorem submit_invalid_candidate_rejected (st : HandlerState)
    (msg resp ts1 ts2 : String)
    (h : validate_json_structure (parse_llm_response resp st.current_json).2.1 = false) :
    process_user_message st msg (.ok resp) ts1 ts2 =
      ((clarificationResponse (parse_llm_response resp st.current_json).1,
          st.current_json, false),
        { st with conversation_history := st.conversation_history ++
            [⟨"user", msg, ts1, none, none⟩,
             ⟨"assistant", clarificationResponse (parse_llm_response resp st.current_json).1,
               ts2, none, some "Invalid JSON generated"⟩] }) := by
  simp only [process_user_message, process_user_message_with, h]
  simp

/-- Witness for C7: a marker-free response over a session whose live
document is `None`; the extraction falls back to it, the validator rejects
it, and the call rejects without touching the document. -/
theorem submit_invalid_candidate_rejected_witness :
    validate_json_structure (parse_llm_response "hello" nullDocState.current_json).2.1 = false ∧
    process_user_message nullDocState "hello" (.ok "hello") "t1" "t2" =
      ((clarificationResponse (parse_llm_response "hello" nullDocState.current_json).1,
          nullDocState.current_json, false),
        { nullDocState with conversation_history :=
            [⟨"user", "hello", "t1", none, none⟩,
             ⟨"assistant",
               clarificationResponse (parse_llm_response "hello" nullDocState.current_json).1,
               "t2", none, some "Invalid JSON generated"⟩] }) :=
  ⟨rfl, submit_invalid_candidate_rejected nullDocState "hello" "hello" "t1" "t2" rfl⟩

theorem lastAcceptedIdxAux_eq_none :
    ∀ (ts : List Turn) (i : Nat),
      lastAcceptedIdxAux ts i = none ↔ ∀ t ∈ ts, isAcceptedTurn t = false
  | [], i => by simp [lastAcceptedIdxAux]
  | t :: ts, i => by
      simp only [lastAcceptedIdxAux]
      cases haux : lastAcceptedIdxAux ts (i + 1) with
      | some j =>
        simp only []
        constructor
        · intro h; cases h
        · intro h
          have := (lastAcceptedIdxAux_eq_none ts (i + 1)).mpr fun u hu => h u (List.mem_cons_of_mem t hu)
          rw [haux] at this; cases this
      | none =>
        have hts := (lastAcceptedIdxAux_eq_none ts (i + 1)).mp haux
        constructor
        · intro h u hu
          cases hu with
          | head =>
            by_contra hacc
            simp only [Bool.not_eq_false] at hacc
            rw [hacc] at h
            simp at h
          | tail _ hmem => exact hts u hmem
        · intro h
          have : isAcceptedTurn t = false := h t (List.mem_cons_self t ts)
          simp [this]

theorem lastAcceptedIdxAux_last_accepted (t : Turn) (suf : List Turn)
    (ht : isAcceptedTurn t = true) (hsuf : ∀ u ∈ suf, isAcceptedTurn u = false) :
    ∀ (pre : List Turn) (i : Nat),
      lastAcceptedIdxAux (pre ++ t :: suf) i = some (i + pre.length)
  | [], i => by
      simp only [List.nil_append, lastAcceptedIdxAux]
      rw [(lastAcceptedIdxAux_eq_none suf (i + 1)).mpr hsuf]
      simp [ht]
  | p :: pre, i => by
      simp only [List.cons_append, lastAcceptedIdxAux, List.append_eq]
      rw [lastAcceptedIdxAux_last_accepted t suf ht hsuf pre (i + 1)]
      simp only [List.length_cons]
      congr 1
      omega

/-- C9: `undo_last_change` truncates the history to just before the most
recent accepted-change assistant turn and reports success; when no such
turn exists it reports failure and leaves the state unmodified. -/
theorem undo_truncates_before_last_accepted (st : HandlerState) :
    ((∀ t ∈ st.conversation_history, isAcceptedTurn t = false) →
      undo_last_change st = ((false, "No changes found to undo."), st)) ∧
    (∀ pre t suf, st.conversation_history = pre ++ t :: suf →
      isAcceptedTurn t = true → (∀ u ∈ suf, isAcceptedTurn u = false) →
      undo_last_change st =
        ((true, undoSuccessMessage), { st with conversation_history := pre })) := by
  constructor
  · intro hall
    simp only [undo_last_change, lastAcceptedIdx]
    rw [(lastAcceptedIdxAux_eq_none st.conversation_history 0).mpr hall]
  · intro pre t suf hdecomp ht hsuf
    simp only [undo_last_change, lastAcceptedIdx, hdecomp]
    rw [lastAcceptedIdxAux_last_accepted t suf ht hsuf pre 0]
    simp [List.take_left]

/-- Witness for C9: a history with one accepted-change assistant turn is
truncated to empty with success; the empty history reports failure. -/
theorem undo_truncates_before_last_accepted_witness :
    undo_last_change
        { conversation_history := [⟨"assistant", "done", "t", some "added X", none⟩],
          current_json := JValue.null, original_text := "" } =
      ((true, undoSuccessMessage),
        { conversation_history := [], current_json := JValue.null, original_text := "" }) ∧
    undo_last_change nullDocState = ((false, "No changes found to undo."), nullDocState) :=
  ⟨(undo_truncates_before_last_accepted _).2 [] ⟨"assistant", "done", "t", some "added X", none⟩ []
      rfl rfl (fun u hu => absurd hu (List.not_mem_nil u)),
   (undo_truncates_before_last_accepted nullDocState).1 (fun t ht => absurd ht (List.not_mem_nil t))⟩

/-- C10: `reset_conversation` empties the history and leaves both the live
document and the stored original source text unchanged, in every state. -/
theorem reset_conversation_frame (st : HandlerState) :
    (reset_conversation st).conversation_history = [] ∧
    (reset_conversation st).current_json = st.current_json ∧
    (reset_conversation st).original_text = st.original_text :=
  ⟨rfl, rfl, rfl⟩


/-!
## Round trip of the serialized document (claim C8): parser step equations

Each step equation is proved by `rfl` at abstract arguments (the fueled
definitions are compiled structurally on the fuel) and only ever used
through `rw`.
-/

theorem skipJsonWs_ws_append (pre cs : List Char)
    (h : ∀ c ∈ pre, isJsonWsChar c = true) :
    skipJsonWs (pre ++ cs) = skipJsonWs cs := by
  induction pre with
  | nil => rfl
  | cons c p ih =>
      have hc : isJsonWsChar c = true := h c (by simp)
      have hp := ih (fun d hd => h d (by simp [hd]))
      simpa [skipJsonWs, List.dropWhile_cons, hc] using hp

theorem skipJsonWs_cons_not {c : Char} (cs : List Char)
    (h : isJsonWsChar c = false) : skipJsonWs (c :: cs) = c :: cs := by
  simp [skipJsonWs, List.dropWhile_cons, h]

theorem nlIndent_ws (lvl : Nat) : ∀ c ∈ nlIndent lvl, isJsonWsChar c = true := by
  intro c hc
  simp only [nlIndent, List.mem_cons, List.mem_replicate] at hc
  rcases hc with h | ⟨-, h⟩ <;> subst h <;> decide

theorem sepOk_of_skipJsonWs {tail : List Char} {c : Char} {rest : List Char}
    (h : skipJsonWs tail = c :: rest)
    (hc : (c.isDigit || c = '.' || c = 'e' || c = 'E') = false) :
    sepOk tail = true := by
  cases tail with
  | nil => simp [skipJsonWs] at h
  | cons c0 t =>
      by_cases hws : isJsonWsChar c0 = true
      · have h4 : ((c0 = ' ' ∨ c0 = '\t') ∨ c0 = '\n') ∨ c0 = '\r' := by
          simpa [isJsonWsChar] using hws
        rcases h4 with ((h0 | h0) | h0) | h0 <;> subst h0 <;> simp [sepOk]
      · rw [skipJsonWs_cons_not t (by simpa using hws)] at h
        injection h with h1 h2
        subst h1
        simp [sepOk, hc]

theorem char_ne_of_toNat {c d : Char} (h : c.toNat ≠ d.toNat) : ¬ c = d :=
  fun he => h (by rw [he])

theorem isJsonWsChar_false_of (c : Char) (h1 : c.toNat ≠ 32) (h2 : c.toNat ≠ 9)
    (h3 : c.toNat ≠ 10) (h4 : c.toNat ≠ 13) : isJsonWsChar c = false := by
  have e1 : ¬ c = ' ' := char_ne_of_toNat h1
  have e2 : ¬ c = '\t' := char_ne_of_toNat h2
  have e3 : ¬ c = '\n' := char_ne_of_toNat h3
  have e4 : ¬ c = '\r' := char_ne_of_toNat h4
  simp [isJsonWsChar, e1, e2, e3, e4]

theorem parseValue_succ (fuel : Nat) (cs : List Char) :
    parseValue (fuel + 1) cs =
      match skipJsonWs cs with
      | [] => none
      | c :: rest =>
          if c = '\x7b' then
            if (skipJsonWs rest).head? = some '\x7d' then
              some (.obj [], (skipJsonWs rest).tail)
            else (parseMembers fuel rest).map fun p => (.obj (dedupFields p.1), p.2)
          else if c = '[' then
            if (skipJsonWs rest).head? = some ']' then
              some (.arr [], (skipJsonWs rest).tail)
            else (parseElems fuel rest).map fun p => (.arr p.1, p.2)
          else if c = '"' then
            (parseStringBody (rest.length + 1) rest).map fun p =>
              (.str (String.mk p.1), p.2)
          else if c = 't' then
            match rest with
            | 'r' :: 'u' :: 'e' :: r => some (.bool true, r)
            | _ => none
          else if c = 'f' then
            match rest with
            | 'a' :: 'l' :: 's' :: 'e' :: r => some (.bool false, r)
            | _ => none
          else if c = 'n' then
            match rest with
            | 'u' :: 'l' :: 'l' :: r => some (.null, r)
            | _ => none
          else parseNumber (c :: rest) := rfl

theorem parseValue_quote (fuel : Nat) (cs rest : List Char)
    (h : skipJsonWs cs = '"' :: rest) :
    parseValue (fuel + 1) cs =
      (parseStringBody (rest.length + 1) rest).map fun p =>
        (.str (String.mk p.1), p.2) := by
  rw [parseValue_succ fuel cs, h]
  try rfl

theorem parseValue_obj_empty (fuel : Nat) (cs rest : List Char)
    (h : skipJsonWs cs = '\x7b' :: rest)
    (he : (skipJsonWs rest).head? = some '\x7d') :
    parseValue (fuel + 1) cs = some (.obj [], (skipJsonWs rest).tail) := by
  rw [parseValue_succ fuel cs, h]
  try rfl
  show (if (skipJsonWs rest).head? = some '\x7d' then
      some (JValue.obj [], (skipJsonWs rest).tail)
    else (parseMembers fuel rest).map fun p => (.obj (dedupFields p.1), p.2)) =
    some (.obj [], (skipJsonWs rest).tail)
  rw [if_pos he]

theorem parseValue_obj_nonempty (fuel : Nat) (cs rest : List Char)
    (h : skipJsonWs cs = '\x7b' :: rest)
    (hne : ¬ (skipJsonWs rest).head? = some '\x7d') :
    parseValue (fuel + 1) cs =
      (parseMembers fuel rest).map fun p => (.obj (dedupFields p.1), p.2) := by
  rw [parseValue_succ fuel cs, h]
  try rfl
  show (if (skipJsonWs rest).head? = some '\x7d' then
      some (JValue.obj [], (skipJsonWs rest).tail)
    else (parseMembers fuel rest).map fun p => (JValue.obj (dedupFields p.1), p.2)) =
    (parseMembers fuel rest).map fun p => (JValue.obj (dedupFields p.1), p.2)
  rw [if_neg hne]

theorem parseValue_arr_empty (fuel : Nat) (cs rest : List Char)
    (h : skipJsonWs cs = '[' :: rest)
    (he : (skipJsonWs rest).head? = some ']') :
    parseValue (fuel + 1) cs = some (.arr [], (skipJsonWs rest).tail) := by
  rw [parseValue_succ fuel cs, h]
  try rfl
  show (if (skipJsonWs rest).head? = some ']' then
      some (JValue.arr [], (skipJsonWs rest).tail)
    else (parseElems fuel rest).map fun p => (.arr p.1, p.2)) =
    some (.arr [], (skipJsonWs rest).tail)
  rw [if_pos he]

theorem parseValue_arr_nonempty (fuel : Nat) (cs rest : List Char)
    (h : skipJsonWs cs = '[' :: rest)
    (hne : ¬ (skipJsonWs rest).head? = some ']') :
    parseValue (fuel + 1) cs =
      (parseElems fuel rest).map fun p => (.arr p.1, p.2) := by
  rw [parseValue_succ fuel cs, h]
  try rfl
  show (if (skipJsonWs rest).head? = some ']' then
      some (JValue.arr [], (skipJsonWs rest).tail)
    else (parseElems fuel rest).map fun p => (JValue.arr p.1, p.2)) =
    (parseElems fuel rest).map fun p => (JValue.arr p.1, p.2)
  rw [if_neg hne]

theorem parseValue_lit_true (fuel : Nat) (cs r : List Char)
    (h : skipJsonWs cs = 't' :: ('r' :: ('u' :: ('e' :: r)))) :
    parseValue (fuel + 1) cs = some (.bool true, r) := by
  rw [parseValue_succ fuel cs, h]
  try rfl

theorem parseValue_lit_false (fuel : Nat) (cs r : List Char)
    (h : skipJsonWs cs = 'f' :: ('a' :: ('l' :: ('s' :: ('e' :: r))))) :
    parseValue (fuel + 1) cs = some (.bool false, r) := by
  rw [parseValue_succ fuel cs, h]
  try rfl

theorem parseValue_lit_null (fuel : Nat) (cs r : List Char)
    (h : skipJsonWs cs = 'n' :: ('u' :: ('l' :: ('l' :: r)))) :
    parseValue (fuel + 1) cs = some (.null, r) := by
  rw [parseValue_succ fuel cs, h]
  try rfl

theorem parseValue_other (fuel : Nat) (cs : List Char) (c : Char) (rest : List Char)
    (h : skipJsonWs cs = c :: rest)
    (h1 : ¬ c = '\x7b') (h2 : ¬ c = '[') (h3 : ¬ c = '"')
    (h4 : ¬ c = 't') (h5 : ¬ c = 'f') (h6 : ¬ c = 'n') :
    parseValue (fuel + 1) cs = parseNumber (c :: rest) := by
  rw [parseValue_succ fuel cs, h]
  try rfl
  show (if c = '\x7b' then _ else if c = '[' then _ else if c = '"' then _
    else if c = 't' then _ else if c = 'f' then _ else if c = 'n' then _
    else parseNumber (c :: rest)) = parseNumber (c :: rest)
  rw [if_neg h1, if_neg h2, if_neg h3, if_neg h4, if_neg h5, if_neg h6]

theorem parseMembers_succ (fuel : Nat) (cs : List Char) :
    parseMembers (fuel + 1) cs =
      match skipJsonWs cs with
      | '"' :: rest => memberKey fuel rest
      | _ => none := rfl

theorem parseMembers_quote (fuel : Nat) (cs rest : List Char)
    (h : skipJsonWs cs = '"' :: rest) :
    parseMembers (fuel + 1) cs = memberKey fuel rest := by
  rw [parseMembers_succ fuel cs, h]
  try rfl

theorem memberKey_succ (fuel : Nat) (rest : List Char) :
    memberKey (fuel + 1) rest =
      match parseStringBody (rest.length + 1) rest with
      | some (key, r1) => memberColon fuel (String.mk key) r1
      | none => none := rfl

theorem memberKey_parsed (fuel : Nat) (rest key r1 : List Char)
    (h : parseStringBody (rest.length + 1) rest = some (key, r1)) :
    memberKey (fuel + 1) rest = memberColon fuel (String.mk key) r1 := by
  rw [memberKey_succ fuel rest, h]
  try rfl

theorem memberColon_succ (fuel : Nat) (key : String) (r1 : List Char) :
    memberColon (fuel + 1) key r1 =
      match skipJsonWs r1 with
      | ':' :: r2 => memberValue fuel key r2
      | _ => none := rfl

theorem memberColon_sep (fuel : Nat) (key : String) (r1 r2 : List Char)
    (h : skipJsonWs r1 = ':' :: r2) :
    memberColon (fuel + 1) key r1 = memberValue fuel key r2 := by
  rw [memberColon_succ fuel key r1, h]
  try rfl

theorem memberValue_succ (fuel : Nat) (key : String) (r2 : List Char) :
    memberValue (fuel + 1) key r2 =
      match parseValue fuel r2 with
      | some (v, r3) => memberTail fuel key v r3
      | none => none := rfl

theorem memberValue_parsed (fuel : Nat) (key : String) (r2 : List Char)
    (v : JValue) (r3 : List Char) (h : parseValue fuel r2 = some (v, r3)) :
    memberValue (fuel + 1) key r2 = memberTail fuel key v r3 := by
  rw [memberValue_succ fuel key r2, h]
  try rfl

theorem memberTail_succ (fuel : Nat) (key : String) (v : JValue) (r3 : List Char) :
    memberTail (fuel + 1) key v r3 =
      match skipJsonWs r3 with
      | ',' :: r4 => (parseMembers fuel r4).map fun p => ((key, v) :: p.1, p.2)
      | '\x7d' :: r4 => some ([(key, v)], r4)
      | _ => none := rfl

theorem memberTail_comma (fuel : Nat) (key : String) (v : JValue) (r3 r4 : List Char)
    (h : skipJsonWs r3 = ',' :: r4) :
    memberTail (fuel + 1) key v r3 =
      (parseMembers fuel r4).map fun p => ((key, v) :: p.1, p.2) := by
  rw [memberTail_succ fuel key v r3, h]
  try rfl

theorem memberTail_brace (fuel : Nat) (key : String) (v : JValue) (r3 r4 : List Char)
    (h : skipJsonWs r3 = '\x7d' :: r4) :
    memberTail (fuel + 1) key v r3 = some ([(key, v)], r4) := by
  rw [memberTail_succ fuel key v r3, h]
  try rfl

theorem parseElems_succ (fuel : Nat) (cs : List Char) :
    parseElems (fuel + 1) cs =
      match parseValue fuel cs with
      | some (v, r1) => elemTail fuel v r1
      | none => none := rfl

theorem parseElems_value (fuel : Nat) (cs : List Char) (v : JValue) (r1 : List Char)
    (h : parseValue fuel cs = some (v, r1)) :
    parseElems (fuel + 1) cs = elemTail fuel v r1 := by
  rw [parseElems_succ fuel cs, h]
  try rfl

theorem elemTail_succ (fuel : Nat) (v : JValue) (r1 : List Char) :
    elemTail (fuel + 1) v r1 =
      match skipJsonWs r1 with
      | ',' :: r2 => (parseElems fuel r2).map fun p => (v :: p.1, p.2)
      | ']' :: r2 => some ([v], r2)
      | _ => none := rfl

theorem elemTail_comma (fuel : Nat) (v : JValue) (r1 r2 : List Char)
    (h : skipJsonWs r1 = ',' :: r2) :
    elemTail (fuel + 1) v r1 =
      (parseElems fuel r2).map fun p => (v :: p.1, p.2) := by
  rw [elemTail_succ fuel v r1, h]
  try rfl

theorem elemTail_bracket (fuel : Nat) (v : JValue) (r1 r2 : List Char)
    (h : skipJsonWs r1 = ']' :: r2) :
    elemTail (fuel + 1) v r1 = some ([v], r2) := by
  rw [elemTail_succ fuel v r1, h]
  try rfl

/-! ### Shape facts about the serializer output -/

theorem toHex4_length (n : Nat) : (toHex4 n).length = 4 := by
  simp [toHex4]

theorem escapeChar_length (c : Char) : 1 ≤ (escapeChar c).length := by
  rcases escapeChar_eq c with ⟨-, he⟩ | ⟨-, he⟩ | ⟨-, he⟩ | ⟨-, he⟩ | ⟨-, he⟩ |
    ⟨-, he⟩ | ⟨-, he⟩ | ⟨-, he⟩ | ⟨-, -, -, -, he⟩ | ⟨-, -, he⟩ | ⟨-, -, he⟩ <;>
    simp [he]

theorem escapeChars_length : ∀ (l : List Char), l.length ≤ (escapeChars l).length
  | [] => by simp [escapeChars]
  | c :: l => by
      have ih := escapeChars_length l
      have h1 := escapeChar_length c
      simp only [escapeChars, List.length_cons, List.length_append]
      omega

theorem sizeJ_pos (v : JValue) : 1 ≤ sizeJ v := by
  cases v <;> simp only [sizeJ] <;> omega

theorem isPyWsChar_false_of (c : Char) (h1 : c.toNat ≠ 32) (h2 : c.toNat ≠ 9)
    (h3 : c.toNat ≠ 10) (h4 : c.toNat ≠ 13) (h5 : c.toNat ≠ 11)
    (h6 : c.toNat ≠ 12) : isPyWsChar c = false := by
  have e1 : ¬ c = ' ' := char_ne_of_toNat h1
  have e2 : ¬ c = '\t' := char_ne_of_toNat h2
  have e3 : ¬ c = '\n' := char_ne_of_toNat h3
  have e4 : ¬ c = '\r' := char_ne_of_toNat h4
  have e5 : ¬ c = '\x0b' := char_ne_of_toNat h5
  have e6 : ¬ c = '\x0c' := char_ne_of_toNat h6
  simp [isPyWsChar, e1, e2, e3, e4, e5, e6]

theorem intChars_head (n : Int) :
    ∃ c t, intChars n = c :: t ∧ ((48 ≤ c.toNat ∧ c.toNat ≤ 57) ∨ c.toNat = 45) := by
  cases n with
  | ofNat m =>
      obtain ⟨c, t, he, hge, hle, -⟩ := natCharsAux_head (m + 1) m (by omega)
      exact ⟨c, t, by simpa [intChars, natChars] using he, Or.inl ⟨hge, hle⟩⟩
  | negSucc k =>
      exact ⟨'-', natChars (k + 1), rfl, Or.inr rfl⟩

theorem dumpVal_head (lvl : Nat) (v : JValue) :
    ∃ c t, dumpVal lvl v = c :: t ∧ isJsonWsChar c = false ∧ ¬ c = ']' ∧
      isPyWsChar c = false := by
  cases v with
  | str s =>
      exact ⟨'"', escapeChars s.data ++ ['"'], by simp [dumpVal, dumpString],
        by decide, by decide, by decide⟩
  | num n =>
      obtain ⟨c, t, hct, hc⟩ := intChars_head n
      have hr : c.toNat ≠ 32 ∧ c.toNat ≠ 9 ∧ c.toNat ≠ 10 ∧ c.toNat ≠ 13 ∧
          c.toNat ≠ 11 ∧ c.toNat ≠ 12 := by omega
      have h93 : (']' : Char).toNat = 93 := rfl
      refine ⟨c, t, by simp [dumpVal, hct], ?_, ?_, ?_⟩
      · exact isJsonWsChar_false_of c hr.1 hr.2.1 hr.2.2.1 hr.2.2.2.1
      · exact char_ne_of_toNat (by omega)
      · exact isPyWsChar_false_of c hr.1 hr.2.1 hr.2.2.1 hr.2.2.2.1
          hr.2.2.2.2.1 hr.2.2.2.2.2
  | bool b =>
      cases b
      · exact ⟨'f', ['a', 'l', 's', 'e'], by simp [dumpVal], by decide, by decide,
          by decide⟩
      · exact ⟨'t', ['r', 'u', 'e'], by simp [dumpVal], by decide, by decide,
          by decide⟩
  | null =>
      exact ⟨'n', ['u', 'l', 'l'], by simp [dumpVal], by decide, by decide,
        by decide⟩
  | arr xs =>
      cases xs with
      | nil => exact ⟨'[', [']'], by simp [dumpVal], by decide, by decide, by decide⟩
      | cons x xs =>
          exact ⟨'[', (nlIndent (lvl + 1) ++ dumpVal (lvl + 1) x ++
              dumpElemsRest (lvl + 1) xs ++ nlIndent lvl) ++ [']'],
            by simp [dumpVal], by decide, by decide, by decide⟩
  | obj fs =>
      cases fs with
      | nil =>
          exact ⟨'\x7b', ['\x7d'], by simp [dumpVal], by decide, by decide,
            by decide⟩
      | cons f fs =>
          exact ⟨'\x7b', (nlIndent (lvl + 1) ++ dumpString f.1 ++ ':' :: ' ' ::
              dumpVal (lvl + 1) f.2 ++ dumpFieldsRest (lvl + 1) fs ++
              nlIndent lvl) ++ ['\x7d'],
            by simp [dumpVal], by decide, by decide, by decide⟩

/-! ### CPython dict folding is the identity on duplicate-free field lists -/

theorem keyMem_false_mem {k : String} : ∀ {ps : List (String × JValue)},
    keyMem k ps = false → ∀ p ∈ ps, ¬ p.1 = k := by
  intro ps
  induction ps with
  | nil => intro _ p hp; simp at hp
  | cons q qs ih =>
      intro h p hp
      obtain ⟨q1, q2⟩ := q
      simp only [keyMem, Bool.or_eq_false_iff] at h
      rcases List.mem_cons.mp hp with rfl | hmem
      · simpa using beq_eq_false_iff_ne.mp h.1
      · exact ih h.2 p hmem

theorem keyMem_append (k : String) (a b : List (String × JValue)) :
    keyMem k (a ++ b) = (keyMem k a || keyMem k b) := by
  induction a with
  | nil => simp [keyMem]
  | cons q qs ih =>
      obtain ⟨q1, q2⟩ := q
      simp [keyMem, ih, Bool.or_assoc]

theorem insertPair_notMem {k : String} (v : JValue) :
    ∀ (acc : List (String × JValue)), keyMem k acc = false →
      insertPair acc k v = acc ++ [(k, v)] := by
  intro acc
  induction acc with
  | nil => intro _; rfl
  | cons q qs ih =>
      intro h
      obtain ⟨q1, q2⟩ := q
      simp only [keyMem, Bool.or_eq_false_iff] at h
      have hne : ¬ q1 = k := by simpa using beq_eq_false_iff_ne.mp h.1
      simp [insertPair, hne, ih h.2]

theorem foldl_insertPair : ∀ (ps acc : List (String × JValue)),
    wellFormedFieldsJ ps = true → (∀ p ∈ ps, keyMem p.1 acc = false) →
    ps.foldl (fun a p => insertPair a p.1 p.2) acc = acc ++ ps := by
  intro ps
  induction ps with
  | nil => intro acc _ _; simp
  | cons q qs ih =>
      intro acc hw hacc
      obtain ⟨k, v⟩ := q
      simp only [wellFormedFieldsJ, Bool.and_eq_true, Bool.not_eq_true'] at hw
      have h0 : keyMem k acc = false := hacc (k, v) (by simp)
      simp only [List.foldl_cons]
      rw [show insertPair acc (k, v).1 (k, v).2 = insertPair acc k v from rfl,
        insertPair_notMem v acc h0,
        ih (acc ++ [(k, v)]) hw.2 ?_]
      · simp
      · intro p hp
        rw [keyMem_append]
        have e1 : keyMem p.1 acc = false := hacc p (by simp [hp])
        have e2 : ¬ p.1 = k := keyMem_false_mem hw.1.1 p hp
        have e3 : keyMem p.1 [(k, v)] = false := by
          simp [keyMem]
          exact fun he => e2 he.symm
        simp [e1, e3]

theorem dedupFields_wf {ps : List (String × JValue)}
    (h : wellFormedFieldsJ ps = true) : dedupFields ps = ps := by
  have h2 := foldl_insertPair ps [] h (fun p _ => rfl)
  simpa [dedupFields] using h2

theorem skipJsonWs_indent (lvl : Nat) {c : Char} (l : List Char)
    (hc : isJsonWsChar c = false) :
    skipJsonWs (nlIndent lvl ++ (c :: l)) = c :: l := by
  rw [skipJsonWs_ws_append _ _ (nlIndent_ws lvl), skipJsonWs_cons_not l hc]

/-- The parser/serializer round trip, strengthened for the mutual
induction: parsing the serialized form of a well-formed value (resp. the
member run of a nonempty object, the element run of a nonempty array)
consumes exactly that form and returns the value. -/
theorem roundtrip_core (fuel : Nat) :
    (∀ (v : JValue) (lvl : Nat) (pre rest : List Char),
      sizeJ v ≤ fuel → (∀ c ∈ pre, isJsonWsChar c = true) → sepOk rest = true →
      wellFormedJ v = true →
      parseValue fuel (pre ++ (dumpVal lvl v ++ rest)) = some (v, rest)) ∧
    (∀ (k : String) (fv : JValue) (fs : List (String × JValue)) (lvl : Nat)
        (tail rest : List Char),
      sizeMembersJ ((k, fv) :: fs) ≤ fuel →
      wellFormedFieldsJ ((k, fv) :: fs) = true →
      skipJsonWs tail = '\x7d' :: rest →
      parseMembers fuel (nlIndent lvl ++ (dumpString k ++ (':' :: (' ' ::
        (dumpVal lvl fv ++ (dumpFieldsRest lvl fs ++ tail)))))) =
        some ((k, fv) :: fs, rest)) ∧
    (∀ (x : JValue) (xs : List JValue) (lvl : Nat) (pre tail rest : List Char),
      sizeElemsJ (x :: xs) ≤ fuel →
      (∀ c ∈ pre, isJsonWsChar c = true) →
      wellFormedListJ (x :: xs) = true →
      skipJsonWs tail = ']' :: rest →
      parseElems fuel (pre ++ (dumpVal lvl x ++ (dumpElemsRest lvl xs ++ tail))) =
        some (x :: xs, rest)) := by
  induction fuel using Nat.strong_induction_on with
  | _ fuel ih =>
  refine ⟨?_, ?_, ?_⟩
  · -- parseValue on dumpVal
    intro v lvl pre rest hf hpre hsep hw
    obtain ⟨F, rfl⟩ : ∃ F, fuel = F + 1 :=
      ⟨fuel - 1, by have := sizeJ_pos v; omega⟩
    have hskip0 : skipJsonWs (pre ++ (dumpVal lvl v ++ rest)) =
        skipJsonWs (dumpVal lvl v ++ rest) := skipJsonWs_ws_append pre _ hpre
    cases v with
    | str s =>
        have hd : dumpVal lvl (.str s) ++ rest =
            '"' :: (escapeChars s.data ++ ('"' :: rest)) := by
          simp [dumpVal, dumpString]
        have hsk : skipJsonWs (pre ++ (dumpVal lvl (JValue.str s) ++ rest)) =
            '"' :: (escapeChars s.data ++ ('"' :: rest)) := by
          rw [hskip0, hd, skipJsonWs_cons_not _ (by decide)]
        rw [parseValue_quote F _ _ hsk,
          parseStringBody_escapeChars s.data rest _ ?_]
        · rfl
        · have := escapeChars_length s.data
          simp only [List.length_append, List.length_cons]
          omega
    | num n =>
        obtain ⟨c, t, hct, hc⟩ := intChars_head n
        have hws : isJsonWsChar c = false :=
          isJsonWsChar_false_of c (by omega) (by omega) (by omega) (by omega)
        have hd : dumpVal lvl (.num n) ++ rest = c :: (t ++ rest) := by
          simp [dumpVal, hct]
        have hsk : skipJsonWs (pre ++ (dumpVal lvl (JValue.num n) ++ rest)) =
            c :: (t ++ rest) := by
          rw [hskip0, hd, skipJsonWs_cons_not _ hws]
        rw [parseValue_other F _ c (t ++ rest) hsk
          (char_ne_of_toNat (by have : ('\x7b' : Char).toNat = 123 := rfl; omega))
          (char_ne_of_toNat (by have : ('[' : Char).toNat = 91 := rfl; omega))
          (char_ne_of_toNat (by have : ('"' : Char).toNat = 34 := rfl; omega))
          (char_ne_of_toNat (by have : ('t' : Char).toNat = 116 := rfl; omega))
          (char_ne_of_toNat (by have : ('f' : Char).toNat = 102 := rfl; omega))
          (char_ne_of_toNat (by have : ('n' : Char).toNat = 110 := rfl; omega))]
        rw [show c :: (t ++ rest) = (c :: t) ++ rest from rfl, ← hct]
        exact parseNumber_intChars n rest hsep
    | bool b =>
        cases b with
        | true =>
            have hsk : skipJsonWs (pre ++ (dumpVal lvl (JValue.bool true) ++ rest)) =
                't' :: ('r' :: ('u' :: ('e' :: rest))) := by
              rw [hskip0, show dumpVal lvl (.bool true) ++ rest =
                't' :: ('r' :: ('u' :: ('e' :: rest))) from by simp [dumpVal],
                skipJsonWs_cons_not _ (by decide)]
            exact parseValue_lit_true F _ rest hsk
        | false =>
            have hsk : skipJsonWs (pre ++ (dumpVal lvl (JValue.bool false) ++ rest)) =
                'f' :: ('a' :: ('l' :: ('s' :: ('e' :: rest)))) := by
              rw [hskip0, show dumpVal lvl (.bool false) ++ rest =
                'f' :: ('a' :: ('l' :: ('s' :: ('e' :: rest)))) from by simp [dumpVal],
                skipJsonWs_cons_not _ (by decide)]
            exact parseValue_lit_false F _ rest hsk
    | null =>
        have hsk : skipJsonWs (pre ++ (dumpVal lvl JValue.null ++ rest)) =
            'n' :: ('u' :: ('l' :: ('l' :: rest))) := by
          rw [hskip0, show dumpVal lvl .null ++ rest =
            'n' :: ('u' :: ('l' :: ('l' :: rest))) from by simp [dumpVal],
            skipJsonWs_cons_not _ (by decide)]
        exact parseValue_lit_null F _ rest hsk
    | arr xs =>
        cases xs with
        | nil =>
            have hsk : skipJsonWs (pre ++ (dumpVal lvl (JValue.arr []) ++ rest)) =
                '[' :: (']' :: rest) := by
              rw [hskip0, show dumpVal lvl (.arr []) ++ rest =
                '[' :: (']' :: rest) from by simp [dumpVal],
                skipJsonWs_cons_not _ (by decide)]
            have hin : skipJsonWs (']' :: rest) = ']' :: rest :=
              skipJsonWs_cons_not _ (by decide)
            rw [parseValue_arr_empty F _ (']' :: rest) hsk (by rw [hin]; rfl), hin]
            rfl
        | cons x xs =>
            have hd : dumpVal lvl (.arr (x :: xs)) ++ rest =
                '[' :: (nlIndent (lvl + 1) ++ (dumpVal (lvl + 1) x ++
                  (dumpElemsRest (lvl + 1) xs ++
                    (nlIndent lvl ++ (']' :: rest))))) := by
              simp [dumpVal, List.append_assoc]
            have hsk : skipJsonWs (pre ++ (dumpVal lvl (JValue.arr (x :: xs)) ++ rest)) =
                '[' :: (nlIndent (lvl + 1) ++ (dumpVal (lvl + 1) x ++
                  (dumpElemsRest (lvl + 1) xs ++
                    (nlIndent lvl ++ (']' :: rest))))) := by
              rw [hskip0, hd, skipJsonWs_cons_not _ (by decide)]
            obtain ⟨c0, t0, hc0, hws0, hnb0, -⟩ := dumpVal_head (lvl + 1) x
            have hR : skipJsonWs (nlIndent (lvl + 1) ++ (dumpVal (lvl + 1) x ++
                (dumpElemsRest (lvl + 1) xs ++ (nlIndent lvl ++ (']' :: rest))))) =
                c0 :: (t0 ++ (dumpElemsRest (lvl + 1) xs ++
                  (nlIndent lvl ++ (']' :: rest)))) := by
              rw [skipJsonWs_ws_append _ _ (nlIndent_ws (lvl + 1)), hc0,
                List.cons_append, skipJsonWs_cons_not _ hws0]
            have hne : ¬ (skipJsonWs (nlIndent (lvl + 1) ++ (dumpVal (lvl + 1) x ++
                (dumpElemsRest (lvl + 1) xs ++
                  (nlIndent lvl ++ (']' :: rest)))))).head? = some ']' := by
              rw [hR]
              simp [hnb0]
            rw [parseValue_arr_nonempty F _ _ hsk hne]
            have hE := (ih F (by omega)).2.2 x xs (lvl + 1) (nlIndent (lvl + 1))
              (nlIndent lvl ++ (']' :: rest)) rest
              (by simp only [sizeJ] at hf; omega)
              (nlIndent_ws (lvl + 1))
              (by simpa [wellFormedJ] using hw)
              (skipJsonWs_indent lvl _ (by decide))
            rw [hE]
            rfl
    | obj fs =>
        cases fs with
        | nil =>
            have hsk : skipJsonWs (pre ++ (dumpVal lvl (JValue.obj []) ++ rest)) =
                '\x7b' :: ('\x7d' :: rest) := by
              rw [hskip0, show dumpVal lvl (.obj []) ++ rest =
                '\x7b' :: ('\x7d' :: rest) from by simp [dumpVal],
                skipJsonWs_cons_not _ (by decide)]
            have hin : skipJsonWs ('\x7d' :: rest) = '\x7d' :: rest :=
              skipJsonWs_cons_not _ (by decide)
            rw [parseValue_obj_empty F _ ('\x7d' :: rest) hsk (by rw [hin]; rfl), hin]
            rfl
        | cons f fs =>
            obtain ⟨k, fv⟩ := f
            have hd : dumpVal lvl (.obj ((k, fv) :: fs)) ++ rest =
                '\x7b' :: (nlIndent (lvl + 1) ++ (dumpString k ++ (':' :: (' ' ::
                  (dumpVal (lvl + 1) fv ++ (dumpFieldsRest (lvl + 1) fs ++
                    (nlIndent lvl ++ ('\x7d' :: rest)))))))) := by
              simp [dumpVal, List.append_assoc]
            have hsk : skipJsonWs (pre ++
                (dumpVal lvl (JValue.obj ((k, fv) :: fs)) ++ rest)) =
                '\x7b' :: (nlIndent (lvl + 1) ++ (dumpString k ++ (':' :: (' ' ::
                  (dumpVal (lvl + 1) fv ++ (dumpFieldsRest (lvl + 1) fs ++
                    (nlIndent lvl ++ ('\x7d' :: rest)))))))) := by
              rw [hskip0, hd, skipJsonWs_cons_not _ (by decide)]
            have hR : skipJsonWs (nlIndent (lvl + 1) ++ (dumpString k ++ (':' :: (' ' ::
                (dumpVal (lvl + 1) fv ++ (dumpFieldsRest (lvl + 1) fs ++
                  (nlIndent lvl ++ ('\x7d' :: rest)))))))) =
                '"' :: (escapeChars k.data ++ ('"' :: (':' :: (' ' ::
                  (dumpVal (lvl + 1) fv ++ (dumpFieldsRest (lvl + 1) fs ++
                    (nlIndent lvl ++ ('\x7d' :: rest)))))))) := by
              rw [skipJsonWs_ws_append _ _ (nlIndent_ws (lvl + 1)),
                show dumpString k ++ (':' :: (' ' ::
                  (dumpVal (lvl + 1) fv ++ (dumpFieldsRest (lvl + 1) fs ++
                    (nlIndent lvl ++ ('\x7d' :: rest)))))) =
                  '"' :: (escapeChars k.data ++ ('"' :: (':' :: (' ' ::
                    (dumpVal (lvl + 1) fv ++ (dumpFieldsRest (lvl + 1) fs ++
                      (nlIndent lvl ++ ('\x7d' :: rest)))))))) from by
                  simp [dumpString],
                skipJsonWs_cons_not _ (by decide)]
            have hne : ¬ (skipJsonWs (nlIndent (lvl + 1) ++ (dumpString k ++
                (':' :: (' ' :: (dumpVal (lvl + 1) fv ++
                  (dumpFieldsRest (lvl + 1) fs ++
                    (nlIndent lvl ++ ('\x7d' :: rest))))))))).head? =
                some '\x7d' := by
              rw [hR]
              simp
            have hwf : wellFormedFieldsJ ((k, fv) :: fs) = true := by
              simpa [wellFormedJ] using hw
            rw [parseValue_obj_nonempty F _ _ hsk hne]
            have hM := (ih F (by omega)).2.1 k fv fs (lvl + 1)
              (nlIndent lvl ++ ('\x7d' :: rest)) rest
              (by simp only [sizeJ] at hf; omega)
              hwf
              (skipJsonWs_indent lvl _ (by decide))
            rw [hM, Option.map_some']
            show some (JValue.obj (dedupFields ((k, fv) :: fs)), rest) =
              some (JValue.obj ((k, fv) :: fs), rest)
            rw [dedupFields_wf hwf]
  · -- parseMembers on a dumped member run
    intro k fv fs lvl tail rest hf hw htail
    obtain ⟨G, rfl⟩ : ∃ G, fuel = G + 1 + 1 + 1 + 1 + 1 :=
      ⟨fuel - 5, by simp only [sizeMembersJ] at hf; have := sizeJ_pos fv; omega⟩
    simp only [sizeMembersJ] at hf
    simp only [wellFormedFieldsJ, Bool.and_eq_true, Bool.not_eq_true'] at hw
    have hsk : skipJsonWs (nlIndent lvl ++ (dumpString k ++ (':' :: (' ' ::
        (dumpVal lvl fv ++ (dumpFieldsRest lvl fs ++ tail)))))) =
        '"' :: (escapeChars k.data ++ ('"' :: (':' :: (' ' ::
          (dumpVal lvl fv ++ (dumpFieldsRest lvl fs ++ tail)))))) := by
      rw [skipJsonWs_ws_append _ _ (nlIndent_ws lvl),
        show dumpString k ++ (':' :: (' ' ::
          (dumpVal lvl fv ++ (dumpFieldsRest lvl fs ++ tail)))) =
          '"' :: (escapeChars k.data ++ ('"' :: (':' :: (' ' ::
            (dumpVal lvl fv ++ (dumpFieldsRest lvl fs ++ tail)))))) from by
          simp [dumpString],
        skipJsonWs_cons_not _ (by decide)]
    rw [parseMembers_quote (G + 1 + 1 + 1 + 1) _ _ hsk]
    rw [memberKey_parsed (G + 1 + 1 + 1) _ k.data _
      (parseStringBody_escapeChars k.data _ _
        (by have := escapeChars_length k.data
            simp only [List.length_append, List.length_cons]
            omega))]
    rw [show String.mk k.data = k from rfl]
    rw [memberColon_sep (G + 1 + 1) k _ _ (skipJsonWs_cons_not _ (by decide))]
    have hsep' : sepOk (dumpFieldsRest lvl fs ++ tail) = true := by
      cases fs with
      | nil => simpa [dumpFieldsRest] using sepOk_of_skipJsonWs htail (by decide)
      | cons g gs =>
          rw [show dumpFieldsRest lvl (g :: gs) ++ tail =
            ',' :: (nlIndent lvl ++ (dumpString g.1 ++ (':' :: (' ' ::
              (dumpVal lvl g.2 ++ (dumpFieldsRest lvl gs ++ tail)))))) from by
            simp [dumpFieldsRest, List.append_assoc]]
          rfl
    have hv := (ih (G + 1) (by omega)).1 fv lvl [' ']
      (dumpFieldsRest lvl fs ++ tail) (by omega)
      (by intro d hd; simp at hd; subst hd; decide) hsep' hw.1.2
    rw [show ([' '] : List Char) ++ (dumpVal lvl fv ++
      (dumpFieldsRest lvl fs ++ tail)) = ' ' :: (dumpVal lvl fv ++
      (dumpFieldsRest lvl fs ++ tail)) from rfl] at hv
    rw [memberValue_parsed (G + 1) k _ fv _ hv]
    cases fs with
    | nil =>
        rw [show dumpFieldsRest lvl ([] : List (String × JValue)) ++ tail = tail
          from by simp [dumpFieldsRest]]
        rw [memberTail_brace G k fv tail rest htail]
    | cons g gs =>
        obtain ⟨k2, fv2⟩ := g
        have hdf : dumpFieldsRest lvl ((k2, fv2) :: gs) ++ tail =
            ',' :: (nlIndent lvl ++ (dumpString k2 ++ (':' :: (' ' ::
              (dumpVal lvl fv2 ++ (dumpFieldsRest lvl gs ++ tail)))))) := by
          simp [dumpFieldsRest, List.append_assoc]
        rw [hdf, memberTail_comma G k fv _ _ (skipJsonWs_cons_not _ (by decide))]
        have hM := (ih G (by omega)).2.1 k2 fv2 gs lvl tail rest
          (by simp only [sizeMembersJ]
              have := sizeJ_pos fv
              simp only [sizeMembersJ] at hf
              omega)
          hw.2 htail
        rw [hM]
        rfl
  · -- parseElems on a dumped element run
    intro x xs lvl pre tail rest hf hpre hw htail
    obtain ⟨F, rfl⟩ : ∃ F, fuel = F + 1 + 1 :=
      ⟨fuel - 2, by simp only [sizeElemsJ] at hf; have := sizeJ_pos x; omega⟩
    simp only [sizeElemsJ] at hf
    simp only [wellFormedListJ, Bool.and_eq_true] at hw
    have hsep' : sepOk (dumpElemsRest lvl xs ++ tail) = true := by
      cases xs with
      | nil => simpa [dumpElemsRest] using sepOk_of_skipJsonWs htail (by decide)
      | cons y ys =>
          rw [show dumpElemsRest lvl (y :: ys) ++ tail =
            ',' :: (nlIndent lvl ++ (dumpVal lvl y ++
              (dumpElemsRest lvl ys ++ tail))) from by
            simp [dumpElemsRest, List.append_assoc]]
          rfl
    have hv := (ih (F + 1) (by omega)).1 x lvl pre
      (dumpElemsRest lvl xs ++ tail) (by omega) hpre hsep' hw.1
    rw [parseElems_value (F + 1) _ x _ hv]
    cases xs with
    | nil =>
        rw [show dumpElemsRest lvl ([] : List JValue) ++ tail = tail
          from by simp [dumpElemsRest]]
        rw [elemTail_bracket F x tail rest htail]
    | cons y ys =>
        have hde : dumpElemsRest lvl (y :: ys) ++ tail =
            ',' :: (nlIndent lvl ++ (dumpVal lvl y ++
              (dumpElemsRest lvl ys ++ tail))) := by
          simp [dumpElemsRest, List.append_assoc]
        rw [hde, elemTail_comma F x _ _ (skipJsonWs_cons_not _ (by decide))]
        have hE := (ih F (by omega)).2.2 y ys lvl (nlIndent lvl) tail rest
          (by have := sizeJ_pos x; omega)
          (nlIndent_ws lvl) hw.2 htail
        rw [hE]
        rfl

/-! ### The default fuel of `json_loads_chars` covers every serialized value -/

theorem nlIndent_length (lvl : Nat) : (nlIndent lvl).length = 1 + 2 * lvl := by
  simp [nlIndent]
  omega

theorem dumpString_length (s : String) :
    (dumpString s).length = (escapeChars s.data).length + 2 := by
  simp only [dumpString, List.length_cons, List.length_append,
    List.length_singleton, List.length_nil]

theorem intChars_length_pos (n : Int) : 1 ≤ (intChars n).length := by
  obtain ⟨c, t, he, -⟩ := intChars_head n
  simp [he]

theorem size_le_core (n : Nat) :
    (∀ (v : JValue) (lvl : Nat), sizeJ v ≤ n →
      sizeJ v ≤ 5 * (dumpVal lvl v).length) ∧
    (∀ (fs : List (String × JValue)) (lvl : Nat), sizeMembersJ fs ≤ n →
      sizeMembersJ fs ≤ 5 * (dumpFieldsRest lvl fs).length) ∧
    (∀ (xs : List JValue) (lvl : Nat), sizeElemsJ xs ≤ n →
      sizeElemsJ xs ≤ 5 * (dumpElemsRest lvl xs).length) := by
  induction n using Nat.strong_induction_on with
  | _ n ih =>
  refine ⟨?_, ?_, ?_⟩
  · intro v lvl hn
    have h1 := sizeJ_pos v
    cases v with
    | str s =>
        simp only [sizeJ, dumpVal, dumpString_length]
        omega
    | num m =>
        have h2 := intChars_length_pos m
        simp only [sizeJ, dumpVal]
        omega
    | bool b =>
        cases b <;>
          (simp only [sizeJ, dumpVal, List.length_cons, List.length_nil]; omega)
    | null =>
        simp only [sizeJ, dumpVal, List.length_cons, List.length_nil]
        omega
    | arr xs =>
        cases xs with
        | nil =>
            simp only [sizeJ, sizeElemsJ, dumpVal, List.length_cons,
              List.length_nil]
            omega
        | cons x xs =>
            simp only [sizeJ, sizeElemsJ] at hn
            have hx := (ih (n - 1) (by omega)).1 x (lvl + 1) (by omega)
            have he := (ih (n - 1) (by omega)).2.2 xs (lvl + 1) (by omega)
            simp only [sizeJ, sizeElemsJ, dumpVal, List.length_cons,
              List.length_append, List.length_singleton, nlIndent_length]
            omega
    | obj fs =>
        cases fs with
        | nil =>
            simp only [sizeJ, sizeMembersJ, dumpVal, List.length_cons,
              List.length_nil]
            omega
        | cons f fs =>
            obtain ⟨k, fv⟩ := f
            simp only [sizeJ, sizeMembersJ] at hn
            have hx := (ih (n - 1) (by omega)).1 fv (lvl + 1) (by omega)
            have hm := (ih (n - 1) (by omega)).2.1 fs (lvl + 1) (by omega)
            simp only [sizeJ, sizeMembersJ, dumpVal, List.length_cons,
              List.length_append, List.length_singleton, nlIndent_length,
              dumpString_length]
            omega
  · intro fs lvl hn
    cases fs with
    | nil => simp [sizeMembersJ]
    | cons f fs =>
        obtain ⟨k, fv⟩ := f
        simp only [sizeMembersJ] at hn
        have h1 := sizeJ_pos fv
        have hv := (ih (n - 1) (by omega)).1 fv lvl (by omega)
        have hm := (ih (n - 1) (by omega)).2.1 fs lvl (by omega)
        simp only [sizeMembersJ, dumpFieldsRest, List.length_cons,
          List.length_append, nlIndent_length, dumpString_length]
        omega
  · intro xs lvl hn
    cases xs with
    | nil => simp [sizeElemsJ]
    | cons x xs =>
        simp only [sizeElemsJ] at hn
        have h1 := sizeJ_pos x
        have hv := (ih (n - 1) (by omega)).1 x lvl (by omega)
        have he := (ih (n - 1) (by omega)).2.2 xs lvl (by omega)
        simp only [sizeElemsJ, dumpElemsRest, List.length_cons,
          List.length_append, nlIndent_length]
        omega

/-- `json.loads` inverts `json.dumps(·, indent=2)` on well-formed values
(character-list level). -/
theorem json_loads_chars_dump (v : JValue) (hw : wellFormedJ v = true) :
    json_loads_chars (dumpVal 0 v) = some v := by
  have hsz : sizeJ v ≤ 5 * (dumpVal 0 v).length :=
    (size_le_core (sizeJ v)).1 v 0 (le_refl _)
  have h := (roundtrip_core (5 * (dumpVal 0 v).length + 5)).1 v 0 [] []
    (by omega) (by intro c hc; simp at hc) rfl hw
  rw [List.nil_append, List.append_nil] at h
  simp only [json_loads_chars]
  rw [h]
  rfl

/-- `json.loads` inverts `json.dumps(·, indent=2)` on well-formed values. -/
theorem json_loads_dumps (v : JValue) (hw : wellFormedJ v = true) :
    json_loads (json_dumps v) = some v := by
  have h := json_loads_chars_dump v hw
  simpa [json_loads, json_dumps] using h

/-! ### Locating the fenced block inside the expected response layout -/

theorem isPrefixOf_head_ne {c0 d : Char} (n' t : List Char) (h : ¬ c0 = d) :
    (c0 :: n').isPrefixOf (d :: t) = false := by
  simp [List.isPrefixOf, h]

theorem isPrefixOf_self_append (l m : List Char) :
    l.isPrefixOf (l ++ m) = true := by
  induction l with
  | nil => simp [List.isPrefixOf]
  | cons d t ih => simp [List.isPrefixOf, ih]

theorem findFromAux_found (needle : List Char) (hne : needle ≠ [])
    (hay : List Char) (i : Nat) (h : needle.isPrefixOf hay = true) :
    findFromAux needle hay i = some i := by
  cases hay with
  | nil =>
      cases needle with
      | nil => exact absurd rfl hne
      | cons a as => simp [List.isPrefixOf] at h
  | cons d t =>
      rw [show findFromAux needle (d :: t) i =
        (if needle.isPrefixOf (d :: t) then some i
         else findFromAux needle t (i + 1)) from rfl, if_pos h]

theorem findFromAux_skip_nomem (c0 : Char) (n' : List Char) :
    ∀ (pre suf : List Char) (i : Nat), (c0 ∈ pre → False) →
      findFromAux (c0 :: n') (pre ++ suf) i =
        findFromAux (c0 :: n') suf (i + pre.length) := by
  intro pre
  induction pre with
  | nil => intro suf i _; simp
  | cons d p ihp =>
      intro suf i hmem
      have hd : ¬ c0 = d := fun he => hmem (by rw [he]; simp)
      rw [List.cons_append,
        show findFromAux (c0 :: n') (d :: (p ++ suf)) i =
          (if (c0 :: n').isPrefixOf (d :: (p ++ suf)) then some i
           else findFromAux (c0 :: n') (p ++ suf) (i + 1)) from rfl,
        if_neg (by simp [isPrefixOf_head_ne n' (p ++ suf) hd]),
        ihp suf (i + 1) (fun hm => hmem (by simp [hm])),
        show i + 1 + p.length = i + (d :: p).length from by
          simp only [List.length_cons]; omega]

theorem of_findFromAux_none (needle : List Char) (hne : needle ≠ []) :
    ∀ (J : List Char) (i : Nat), findFromAux needle J i = none →
      ∀ (a b : List Char), J = a ++ b → needle.isPrefixOf b = false := by
  intro J
  induction J with
  | nil =>
      intro i _ a b hab
      have hb : b = [] := by
        have := hab.symm
        simp only [List.append_eq_nil] at this
        exact this.2
      subst hb
      cases needle with
      | nil => exact absurd rfl hne
      | cons x xs => simp [List.isPrefixOf]
  | cons d t ihJ =>
      intro i h a b hab
      rw [show findFromAux needle (d :: t) i =
        (if needle.isPrefixOf (d :: t) then some i
         else findFromAux needle t (i + 1)) from rfl] at h
      by_cases hp : needle.isPrefixOf (d :: t) = true
      · rw [if_pos hp] at h
        simp at h
      · rw [if_neg hp] at h
        cases a with
        | nil =>
            simp only [List.nil_append] at hab
            rw [← hab]
            simp only [Bool.not_eq_true] at hp
            exact hp
        | cons a0 a' =>
            rw [List.cons_append] at hab
            injection hab with h1 h2
            exact ihJ (i + 1) h a' b h2

theorem fence_prefix_ext (l suf : List Char)
    (h : fenceMark.isPrefixOf l = false) :
    fenceMark.isPrefixOf (l ++ ('\n' :: suf)) = false := by
  have hf : fenceMark = btick :: (btick :: (btick :: [])) := by decide
  have hbn : (btick == '\n') = false := by decide
  rw [hf] at h ⊢
  cases l with
  | nil => simp [List.isPrefixOf, hbn]
  | cons x l' =>
      cases l' with
      | nil => simp [List.isPrefixOf, hbn]
      | cons y l'' =>
          cases l'' with
          | nil => simp [List.isPrefixOf, hbn]
          | cons z t =>
              simp only [List.isPrefixOf, List.cons_append,
                Bool.and_eq_false_iff] at h ⊢
              rcases h with h | h
              · exact Or.inl h
              rcases h with h | h
              · exact Or.inr (Or.inl h)
              rcases h with h | h
              · exact Or.inr (Or.inr (Or.inl h))
              · simp [List.isPrefixOf] at h

theorem findFromAux_fence_skip :
    ∀ (J suf : List Char) (i : Nat),
      (∀ a b, J = a ++ b → fenceMark.isPrefixOf b = false) →
      findFromAux fenceMark (J ++ ('\n' :: suf)) i =
        findFromAux fenceMark ('\n' :: suf) (i + J.length) := by
  intro J
  induction J with
  | nil => intro suf i _; simp
  | cons d t ihJ =>
      intro suf i hJ
      have h0 : fenceMark.isPrefixOf (d :: t) = false := hJ [] (d :: t) rfl
      have h1 : fenceMark.isPrefixOf ((d :: t) ++ ('\n' :: suf)) = false :=
        fence_prefix_ext (d :: t) suf h0
      rw [List.cons_append] at h1
      rw [List.cons_append,
        show findFromAux fenceMark (d :: (t ++ ('\n' :: suf))) i =
          (if fenceMark.isPrefixOf (d :: (t ++ ('\n' :: suf))) then some i
           else findFromAux fenceMark (t ++ ('\n' :: suf)) (i + 1)) from rfl,
        if_neg (by simp [h1]),
        ihJ suf (i + 1) (fun a b hab => hJ (d :: a) b (by simp [hab])),
        show i + 1 + t.length = i + (d :: t).length from by
          simp only [List.length_cons]; omega]

/-! ### Stripping the slice back to the serialized document -/

theorem take_len_plus_one (J : List Char) (y : Char) (suf : List Char) :
    (J ++ (y :: suf)).take (J.length + 1) = J ++ [y] := by
  induction J with
  | nil => simp
  | cons d t ih => simp [List.cons_append, List.length_cons, ih]

theorem dropWhile_head_not (p : Char → Bool) (l : List Char)
    (h : ∀ c, l.head? = some c → p c = false) : l.dropWhile p = l := by
  cases l with
  | nil => rfl
  | cons d t => simp [List.dropWhile_cons, h d rfl]

theorem pyStrip_wrap (l : List Char)
    (hh : ∀ c, l.head? = some c → isPyWsChar c = false)
    (hl : ∀ c, l.getLast? = some c → isPyWsChar c = false) :
    pyStrip ('\n' :: (l ++ ['\n'])) = l := by
  cases l with
  | nil => rfl
  | cons d t =>
      have h1 : isPyWsChar d = false := hh d rfl
      have e1 : List.dropWhile isPyWsChar ('\n' :: ((d :: t) ++ ['\n'])) =
          (d :: t) ++ ['\n'] := by
        simp [List.dropWhile_cons, h1, show isPyWsChar '\n' = true from by decide]
      have h2 : ∀ c, (d :: t).reverse.head? = some c → isPyWsChar c = false := by
        intro c hc
        apply hl
        rwa [List.head?_reverse] at hc
      have e2 : List.dropWhile isPyWsChar ('\n' :: (d :: t).reverse) =
          (d :: t).reverse := by
        simp only [List.dropWhile_cons]
        rw [if_pos (by decide), dropWhile_head_not _ _ h2]
      simp only [pyStrip]
      rw [e1, show ((d :: t) ++ ['\n']).reverse = '\n' :: (d :: t).reverse
        from by simp, e2, List.reverse_reverse]

theorem natCharsAux_last (fuel n : Nat) (h : n < fuel) :
    ∃ i c, natCharsAux fuel n = i ++ [c] ∧ 48 ≤ c.toNat ∧ c.toNat ≤ 57 := by
  cases fuel with
  | zero => omega
  | succ f =>
      by_cases h10 : n < 10
      · exact ⟨[], digitChar n, by simp [natCharsAux, h10],
          by rw [toNat_digitChar h10]; omega,
          by rw [toNat_digitChar h10]; omega⟩
      · exact ⟨natCharsAux f (n / 10), digitChar (n % 10),
          by simp [natCharsAux, h10],
          by rw [toNat_digitChar (by omega)]; omega,
          by rw [toNat_digitChar (by omega)]; omega⟩

theorem dumpVal_last (lvl : Nat) (v : JValue) :
    ∃ i c, dumpVal lvl v = i ++ [c] ∧ isPyWsChar c = false := by
  cases v with
  | str s =>
      exact ⟨'"' :: escapeChars s.data, '"', by simp [dumpVal, dumpString],
        by decide⟩
  | num n =>
      cases n with
      | ofNat m =>
          obtain ⟨i, c, he, hge, hle⟩ := natCharsAux_last (m + 1) m (by omega)
          exact ⟨i, c, by simpa [dumpVal, intChars, natChars] using he,
            isPyWsChar_false_of c (by omega) (by omega) (by omega) (by omega)
              (by omega) (by omega)⟩
      | negSucc k =>
          obtain ⟨i, c, he, hge, hle⟩ := natCharsAux_last (k + 2) (k + 1) (by omega)
          refine ⟨'-' :: i, c, ?_,
            isPyWsChar_false_of c (by omega) (by omega) (by omega) (by omega)
              (by omega) (by omega)⟩
          simp only [dumpVal, intChars, natChars, he, List.cons_append]
  | bool b =>
      cases b
      · exact ⟨['f', 'a', 'l', 's'], 'e', rfl, by decide⟩
      · exact ⟨['t', 'r', 'u'], 'e', rfl, by decide⟩
  | null => exact ⟨['n', 'u', 'l'], 'l', rfl, by decide⟩
  | arr xs =>
      cases xs with
      | nil => exact ⟨['['], ']', rfl, by decide⟩
      | cons x xs =>
          exact ⟨'[' :: (nlIndent (lvl + 1) ++ dumpVal (lvl + 1) x ++
              dumpElemsRest (lvl + 1) xs ++ nlIndent lvl), ']', rfl, by decide⟩
  | obj fs =>
      cases fs with
      | nil => exact ⟨['\x7b'], '\x7d', rfl, by decide⟩
      | cons f fs =>
          exact ⟨'\x7b' :: (nlIndent (lvl + 1) ++ dumpString f.1 ++ ':' :: ' ' ::
              dumpVal (lvl + 1) f.2 ++ dumpFieldsRest (lvl + 1) fs ++
              nlIndent lvl), '\x7d', rfl, by decide⟩

theorem fence_not_prefix_nl (l : List Char) :
    fenceMark.isPrefixOf ('\n' :: l) = false := by
  rw [show fenceMark = btick :: (btick :: (btick :: [])) from by decide]
  exact isPrefixOf_head_ne _ _ (by decide)

/-- C8 (amended): for a valid, well-formed document whose `indent=2`
serialization contains no triple backtick, embedding the serialization in
the expected marker layout (with a backtick-free understanding text) and
running `_parse_llm_response` returns exactly the original document via the
marker phase.  The no-triple-backtick restriction is necessary: see the
counterexample. -/
theorem serialization_roundtrip (v : JValue) (u c : String) (fb : JValue)
    (_hv : validate_json_structure v = true)
    (hw : wellFormedJ v = true)
    (ht : hasTriple (dumpVal 0 v) = false)
    (hu : btick ∈ u.data → False) :
    (parse_llm_response (expectedResponseLayout u (json_dumps v) c) fb).2.1 = v := by
  have hdata : (expectedResponseLayout u (json_dumps v) c).data =
      ("UNDERSTANDING: ".data ++ (u.data ++ "\n\nUPDATED_JSON:\n".data)) ++
        (fenceOpen ++ ('\n' :: (dumpVal 0 v ++
          ('\n' :: (fenceMark ++ ("\n\nCHANGES: ".data ++ c.data)))))) := by
    have h1 : "\n\nUPDATED_JSON:\n```json\n".data =
        "\n\nUPDATED_JSON:\n".data ++ (fenceOpen ++ ['\n']) := by decide
    have h2 : "\n```\n\nCHANGES: ".data =
        '\n' :: (fenceMark ++ "\n\nCHANGES: ".data) := by decide
    simp only [expectedResponseLayout, json_dumps, String.data_append, h1, h2]
    simp [List.append_assoc, fenceOpen, fenceMark]
  have hnomem : btick ∈ ("UNDERSTANDING: ".data ++
      (u.data ++ "\n\nUPDATED_JSON:\n".data)) → False := by
    intro hm
    simp only [List.mem_append] at hm
    rcases hm with hm | hm | hm
    · exact absurd hm (by decide)
    · exact hu hm
    · exact absurd hm (by decide)
  have hopen : findFrom ((expectedResponseLayout u (json_dumps v) c).data)
      fenceOpen 0 =
      some ("UNDERSTANDING: ".data ++
        (u.data ++ "\n\nUPDATED_JSON:\n".data)).length := by
    simp only [findFrom, List.drop_zero]
    rw [hdata, show fenceOpen = btick :: "``json".data from by decide,
      findFromAux_skip_nomem btick ("``json".data) _ _ 0 hnomem,
      ← show fenceOpen = btick :: "``json".data from by decide,
      findFromAux_found fenceOpen (by decide) _ _
        (isPrefixOf_self_append fenceOpen _)]
    simp
  have hdrop : ((expectedResponseLayout u (json_dumps v) c).data).drop
      (("UNDERSTANDING: ".data ++
        (u.data ++ "\n\nUPDATED_JSON:\n".data)).length + 7) =
      '\n' :: (dumpVal 0 v ++ ('\n' :: (fenceMark ++
        ("\n\nCHANGES: ".data ++ c.data)))) := by
    rw [hdata,
      show ("UNDERSTANDING: ".data ++
          (u.data ++ "\n\nUPDATED_JSON:\n".data)).length + 7 =
        (("UNDERSTANDING: ".data ++ (u.data ++ "\n\nUPDATED_JSON:\n".data)) ++
          fenceOpen).length from by
        simp [List.length_append, show fenceOpen.length = 7 from by decide],
      show ("UNDERSTANDING: ".data ++ (u.data ++ "\n\nUPDATED_JSON:\n".data)) ++
          (fenceOpen ++ ('\n' :: (dumpVal 0 v ++ ('\n' :: (fenceMark ++
            ("\n\nCHANGES: ".data ++ c.data)))))) =
        (("UNDERSTANDING: ".data ++ (u.data ++ "\n\nUPDATED_JSON:\n".data)) ++
          fenceOpen) ++ ('\n' :: (dumpVal 0 v ++ ('\n' :: (fenceMark ++
            ("\n\nCHANGES: ".data ++ c.data))))) from by
        simp [List.append_assoc]]
    exact List.drop_left _ _
  have hnone : findFromAux fenceMark (dumpVal 0 v) 0 = none := by
    simp only [hasTriple, containsSub, findFrom, List.drop_zero] at ht
    cases hfa : findFromAux ("```".data) (dumpVal 0 v) 0 with
    | none => exact hfa
    | some m => rw [hfa] at ht; simp at ht
  have hsplit : ∀ a b, dumpVal 0 v = a ++ b → fenceMark.isPrefixOf b = false :=
    of_findFromAux_none fenceMark (by decide) (dumpVal 0 v) 0 hnone
  have hclose : findFrom ((expectedResponseLayout u (json_dumps v) c).data)
      fenceMark
      (("UNDERSTANDING: ".data ++
        (u.data ++ "\n\nUPDATED_JSON:\n".data)).length + 7) =
      some ((dumpVal 0 v).length + 2 +
        (("UNDERSTANDING: ".data ++
          (u.data ++ "\n\nUPDATED_JSON:\n".data)).length + 7)) := by
    simp only [findFrom]
    rw [hdrop,
      show findFromAux fenceMark ('\n' :: (dumpVal 0 v ++ ('\n' :: (fenceMark ++
          ("\n\nCHANGES: ".data ++ c.data))))) 0 =
        (if fenceMark.isPrefixOf ('\n' :: (dumpVal 0 v ++ ('\n' :: (fenceMark ++
            ("\n\nCHANGES: ".data ++ c.data))))) then some 0
         else findFromAux fenceMark (dumpVal 0 v ++ ('\n' :: (fenceMark ++
            ("\n\nCHANGES: ".data ++ c.data)))) (0 + 1)) from rfl,
      if_neg (by simp [fence_not_prefix_nl]),
      findFromAux_fence_skip (dumpVal 0 v) _ (0 + 1) hsplit,
      show findFromAux fenceMark ('\n' :: (fenceMark ++
          ("\n\nCHANGES: ".data ++ c.data))) (0 + 1 + (dumpVal 0 v).length) =
        (if fenceMark.isPrefixOf ('\n' :: (fenceMark ++
            ("\n\nCHANGES: ".data ++ c.data))) then
          some (0 + 1 + (dumpVal 0 v).length)
         else findFromAux fenceMark (fenceMark ++
            ("\n\nCHANGES: ".data ++ c.data))
            (0 + 1 + (dumpVal 0 v).length + 1)) from rfl,
      if_neg (by simp [fence_not_prefix_nl]),
      findFromAux_found fenceMark (by decide) _ _
        (isPrefixOf_self_append fenceMark _)]
    simp only [Option.map_some', Option.some.injEq]
    omega
  have hspan : fencedSpan ((expectedResponseLayout u (json_dumps v) c).data) =
      some (("UNDERSTANDING: ".data ++
          (u.data ++ "\n\nUPDATED_JSON:\n".data)).length,
        (dumpVal 0 v).length + 2 +
          (("UNDERSTANDING: ".data ++
            (u.data ++ "\n\nUPDATED_JSON:\n".data)).length + 7)) := by
    simp only [fencedSpan, hopen, hclose]
  have hslice : sliceChars ((expectedResponseLayout u (json_dumps v) c).data)
      (("UNDERSTANDING: ".data ++
        (u.data ++ "\n\nUPDATED_JSON:\n".data)).length + 7)
      ((dumpVal 0 v).length + 2 +
        (("UNDERSTANDING: ".data ++
          (u.data ++ "\n\nUPDATED_JSON:\n".data)).length + 7)) =
      '\n' :: (dumpVal 0 v ++ ['\n']) := by
    simp only [sliceChars]
    rw [hdrop,
      show (dumpVal 0 v).length + 2 +
          (("UNDERSTANDING: ".data ++
            (u.data ++ "\n\nUPDATED_JSON:\n".data)).length + 7) -
          (("UNDERSTANDING: ".data ++
            (u.data ++ "\n\nUPDATED_JSON:\n".data)).length + 7) =
        ((dumpVal 0 v).length + 1) + 1 from by omega,
      List.take_succ_cons, take_len_plus_one]
  have hstrip : pyStrip ('\n' :: (dumpVal 0 v ++ ['\n'])) = dumpVal 0 v := by
    apply pyStrip_wrap
    · intro ch hch
      obtain ⟨c0, t0, he, -, -, hpy⟩ := dumpVal_head 0 v
      rw [he] at hch
      simp only [List.head?_cons, Option.some.injEq] at hch
      exact hch ▸ hpy
    · intro ch hch
      obtain ⟨i0, c0, he, hpy⟩ := dumpVal_last 0 v
      rw [he] at hch
      simp only [List.getLast?_concat, Option.some.injEq] at hch
      exact hch ▸ hpy
  have hjson : json_loads_chars (pyStrip ('\n' :: (dumpVal 0 v ++ ['\n']))) =
      some v := by
    rw [hstrip]
    exact json_loads_chars_dump v hw
  simp only [parse_llm_response, hspan, hslice, hjson]

set_option maxRecDepth 8000 in
/-- Witness for C8: the concrete example document round-trips through the
marker layout. -/
theorem serialization_roundtrip_witness :
    (parse_llm_response
      (expectedResponseLayout "ok" (json_dumps c1ExampleDoc) "done")
      emptyDoc).2.1 = c1ExampleDoc :=
  serialization_roundtrip c1ExampleDoc "ok" "done" emptyDoc
    (by decide) (by decide) (by decide) (by decide)

set_option maxRecDepth 8000 in
/-- C8 counterexample to the unrestricted claim: a validator-accepted
document whose `name` string is three backticks serializes to text whose
triple backtick closes the fenced block early, so the parser falls back to
the unchanged fallback document instead of the original. -/
theorem serialization_roundtrip_counterexample :
    validate_json_structure c8BadDoc = true ∧
    (parse_llm_response
      (expectedResponseLayout "ok" (json_dumps c8BadDoc) "done")
      emptyDoc).2.1 = emptyDoc ∧
    ¬ emptyDoc = c8BadDoc := by
  refine ⟨by decide, by rfl, fun h => ?_⟩
  have hb : beqJ emptyDoc c8BadDoc = true := (beqJ_iff _ _).2 h
  have hf : beqJ emptyDoc c8BadDoc = false := by decide
  rw [hb] at hf
  simp at hf

end KG
